import Mathlib

/-!
Shallow embedding of the quantum-circuit-simulator repository
(`src/quantum_simulator/quantum_state.py`, `src/utils.py`, `src/operators.py`,
`demos/deutschs_algorithm.py`) and proofs about the claims of its
specification.

Modelling conventions:
* numpy complex amplitudes become exact `ℂ` values; the float tolerance
  checks of the source (`1e-5`) are kept literally as `(1/100000 : ℝ)`;
* a statevector of length `2^N` is a total function `ℕ → ℂ` whose relevant
  entries are the indices `< 2^N` (exactly like a numpy array of that
  length, with junk value `0` outside);
* Python `int` indices become `ℤ` at the public API (the source performs
  `self.n_qubits - index - 1` on possibly out-of-range ints), `ℕ`
  internally;
* `format(i, ...)[p]`, the `p`-th character (MSB first) of the zero-padded
  `n`-bit binary string of `i < 2^n`, is embedded as the binary digit
  `i / 2^(n-1-p) % 2`;
* raised Python exceptions become `Except QErr`.
-/

noncomputable section

/-- The error taxonomy of the spec: `Exception`s raised by the source are
classified by the call site that raises them. `indexErr` stands for the
Python `IndexError` coming from out-of-range string subscripts. -/
inductive QErr where
  | validationErr : QErr
  | rangeErr : QErr
  | indexErr : QErr
deriving DecidableEq, Repr

/-! ## Binary-digit toolkit

`nthBit p k` is the digit of weight `2^p` in the binary expansion of `k`;
`setBit p k e` rewrites that digit to `e`; `flipBit p k` toggles it
(the embedding of replacing one character of the binary string and
re-reading the string as an integer). -/

def nthBit (p k : ℕ) : ℕ := k / 2 ^ p % 2

def setBit (p k e : ℕ) : ℕ := k / 2 ^ (p + 1) * 2 ^ (p + 1) + e * 2 ^ p + k % 2 ^ p

def flipBit (p k : ℕ) : ℕ := if nthBit p k = 1 then k - 2 ^ p else k + 2 ^ p

theorem nthBit_lt_two (p k : ℕ) : nthBit p k < 2 := Nat.mod_lt _ (by norm_num)

theorem nthBit_eq_zero_or_one (p k : ℕ) : nthBit p k = 0 ∨ nthBit p k = 1 := by
  have := nthBit_lt_two p k
  omega

theorem bit_decomp (p k : ℕ) :
    k = k / 2 ^ (p + 1) * 2 ^ (p + 1) + nthBit p k * 2 ^ p + k % 2 ^ p := by
  have h1 := Nat.div_add_mod k (2 ^ p)
  have h2 := Nat.div_add_mod (k / 2 ^ p) 2
  have h3 : k / 2 ^ p / 2 = k / 2 ^ (p + 1) := by
    rw [Nat.div_div_eq_div_mul, pow_succ]
  rw [nthBit]
  calc k = 2 ^ p * (k / 2 ^ p) + k % 2 ^ p := h1.symm
    _ = 2 ^ p * (2 * (k / 2 ^ p / 2) + k / 2 ^ p % 2) + k % 2 ^ p := by rw [h2]
    _ = k / 2 ^ p / 2 * 2 ^ (p + 1) + k / 2 ^ p % 2 * 2 ^ p + k % 2 ^ p := by
        rw [pow_succ]; ring
    _ = k / 2 ^ (p + 1) * 2 ^ (p + 1) + k / 2 ^ p % 2 * 2 ^ p + k % 2 ^ p := by rw [h3]

theorem digits_div (p hi e lo : ℕ) (hlo : lo < 2 ^ p) :
    (hi * 2 ^ (p + 1) + e * 2 ^ p + lo) / 2 ^ p = 2 * hi + e := by
  have h : hi * 2 ^ (p + 1) + e * 2 ^ p + lo = lo + (e + 2 * hi) * 2 ^ p := by
    rw [pow_succ]; ring
  rw [h, Nat.add_mul_div_right _ _ (Nat.two_pow_pos p), Nat.div_eq_of_lt hlo]
  omega

theorem digits_nthBit (p hi e lo : ℕ) (he : e < 2) (hlo : lo < 2 ^ p) :
    nthBit p (hi * 2 ^ (p + 1) + e * 2 ^ p + lo) = e := by
  rw [nthBit, digits_div p hi e lo hlo]
  omega

theorem digits_mod (p hi e lo : ℕ) (hlo : lo < 2 ^ p) :
    (hi * 2 ^ (p + 1) + e * 2 ^ p + lo) % 2 ^ p = lo := by
  have h : hi * 2 ^ (p + 1) + e * 2 ^ p + lo = lo + (e + 2 * hi) * 2 ^ p := by
    rw [pow_succ]; ring
  rw [h, Nat.add_mul_mod_self_right, Nat.mod_eq_of_lt hlo]

theorem digits_div_succ (p hi e lo : ℕ) (he : e < 2) (hlo : lo < 2 ^ p) :
    (hi * 2 ^ (p + 1) + e * 2 ^ p + lo) / 2 ^ (p + 1) = hi := by
  have h : hi * 2 ^ (p + 1) + e * 2 ^ p + lo = (e * 2 ^ p + lo) + hi * 2 ^ (p + 1) := by
    ring
  have hlt : e * 2 ^ p + lo < 2 ^ (p + 1) := by
    have h1 : e * 2 ^ p ≤ 1 * 2 ^ p := Nat.mul_le_mul_right _ (by omega)
    have h2 : (2 : ℕ) ^ (p + 1) = 2 ^ p + 2 ^ p := by rw [pow_succ]; ring
    omega
  rw [h, Nat.add_mul_div_right _ _ (Nat.two_pow_pos (p + 1)), Nat.div_eq_of_lt hlt]
  omega

theorem setBit_eq (p k e : ℕ) (he : e < 2) :
    nthBit p (setBit p k e) = e := by
  rw [setBit]
  exact digits_nthBit p _ e _ he (Nat.mod_lt _ (Nat.two_pow_pos p))

theorem setBit_self (p k : ℕ) : setBit p k (nthBit p k) = k := by
  rw [setBit]; exact (bit_decomp p k).symm

theorem setBit_setBit (p k e f : ℕ) (he : e < 2) :
    setBit p (setBit p k e) f = setBit p k f := by
  have hlo : k % 2 ^ p < 2 ^ p := Nat.mod_lt _ (Nat.two_pow_pos p)
  conv_lhs => rw [setBit, setBit]
  rw [digits_div_succ p _ e _ he hlo, digits_mod p _ e _ hlo]
  rfl

theorem setBit_lt (N p k e : ℕ) (hp : p < N) (hk : k < 2 ^ N) (he : e < 2) :
    setBit p k e < 2 ^ N := by
  have hsplit : 2 ^ N = 2 ^ (N - (p + 1)) * 2 ^ (p + 1) := by
    rw [← pow_add]
    congr 1
    omega
  have hhi : k / 2 ^ (p + 1) < 2 ^ (N - (p + 1)) := by
    rw [Nat.div_lt_iff_lt_mul (Nat.two_pow_pos (p + 1))]
    calc k < 2 ^ N := hk
      _ = 2 ^ (N - (p + 1)) * 2 ^ (p + 1) := hsplit
  have hlo : k % 2 ^ p < 2 ^ p := Nat.mod_lt _ (Nat.two_pow_pos p)
  have hhi1 : k / 2 ^ (p + 1) + 1 ≤ 2 ^ (N - (p + 1)) := hhi
  calc setBit p k e = k / 2 ^ (p + 1) * 2 ^ (p + 1) + e * 2 ^ p + k % 2 ^ p := rfl
    _ < k / 2 ^ (p + 1) * 2 ^ (p + 1) + 2 ^ (p + 1) := by
        have h1 : e * 2 ^ p ≤ 1 * 2 ^ p := Nat.mul_le_mul_right _ (by omega)
        have h2 : (2 : ℕ) ^ (p + 1) = 2 ^ p + 2 ^ p := by rw [pow_succ]; ring
        omega
    _ = (k / 2 ^ (p + 1) + 1) * 2 ^ (p + 1) := by ring
    _ ≤ 2 ^ (N - (p + 1)) * 2 ^ (p + 1) := Nat.mul_le_mul_right _ hhi1
    _ = 2 ^ N := hsplit.symm

theorem flipBit_eq_setBit (p k : ℕ) : flipBit p k = setBit p k (1 - nthBit p k) := by
  have hd := bit_decomp p k
  rcases nthBit_eq_zero_or_one p k with h | h
  · rw [h] at hd
    rw [flipBit, if_neg (by omega : ¬ nthBit p k = 1), h, setBit]
    omega
  · rw [h] at hd
    rw [flipBit, if_pos h, h, setBit]
    omega

theorem nthBit_flipBit (p k : ℕ) : nthBit p (flipBit p k) = 1 - nthBit p k := by
  rw [flipBit_eq_setBit, setBit_eq]
  rcases nthBit_eq_zero_or_one p k with h | h <;> omega

theorem flipBit_flipBit (p k : ℕ) : flipBit p (flipBit p k) = k := by
  rw [flipBit_eq_setBit p (flipBit p k), nthBit_flipBit, flipBit_eq_setBit p k,
    setBit_setBit _ _ _ _ (by rcases nthBit_eq_zero_or_one p k with h | h <;> omega)]
  have h : 1 - (1 - nthBit p k) = nthBit p k := by
    rcases nthBit_eq_zero_or_one p k with h | h <;> omega
  rw [h, setBit_self]

theorem flipBit_lt (N p k : ℕ) (hp : p < N) (hk : k < 2 ^ N) :
    flipBit p k < 2 ^ N := by
  rw [flipBit_eq_setBit]
  exact setBit_lt N p k _ hp hk
    (by rcases nthBit_eq_zero_or_one p k with h | h <;> omega)

theorem nthBit_div (a b k : ℕ) : nthBit b (k / 2 ^ a) = nthBit (a + b) k := by
  rw [nthBit, nthBit, Nat.div_div_eq_div_mul, ← pow_add]

theorem nthBit_mod_high (c t x : ℕ) (h : c < t) : nthBit c (x % 2 ^ t) = nthBit c x := by
  have hd := Nat.div_add_mod x (2 ^ t)
  have hsp : (2 : ℕ) ^ t = 2 ^ (t - c) * 2 ^ c := by
    rw [← pow_add]
    congr 1
    omega
  have hx : x = x % 2 ^ t + x / 2 ^ t * 2 ^ (t - c) * 2 ^ c := by
    calc x = 2 ^ t * (x / 2 ^ t) + x % 2 ^ t := hd.symm
      _ = x % 2 ^ t + x / 2 ^ t * 2 ^ (t - c) * 2 ^ c := by rw [hsp]; ring
  have hdiv : x / 2 ^ c = x % 2 ^ t / 2 ^ c + x / 2 ^ t * 2 ^ (t - c) := by
    conv_lhs => rw [hx]
    rw [Nat.add_mul_div_right _ _ (Nat.two_pow_pos c)]
  have htc : ∃ d, t - c = d + 1 := ⟨t - c - 1, by omega⟩
  obtain ⟨d, hdd⟩ := htc
  rw [nthBit, nthBit, hdiv, hdd]
  have h2 : x / 2 ^ t * 2 ^ (d + 1) = x / 2 ^ t * 2 ^ d * 2 := by
    rw [pow_succ]; ring
  rw [h2, Nat.add_mul_mod_self_right]

theorem nthBit_setBit_ne (c t k e : ℕ) (hne : c ≠ t) (he : e < 2) :
    nthBit c (setBit t k e) = nthBit c k := by
  have hlo : k % 2 ^ t < 2 ^ t := Nat.mod_lt _ (Nat.two_pow_pos t)
  rcases Nat.lt_or_ge c t with hlt | hge
  · rw [← nthBit_mod_high c t (setBit t k e) hlt, ← nthBit_mod_high c t k hlt]
    rw [setBit, digits_mod t _ e _ hlo]
  · have hct : ∃ d, c = (t + 1) + d := ⟨c - (t + 1), by omega⟩
    obtain ⟨d, hdd⟩ := hct
    rw [hdd, ← nthBit_div (t + 1) d (setBit t k e), ← nthBit_div (t + 1) d k,
      setBit, digits_div_succ t _ e _ he hlo]

theorem nthBit_flipBit_ne (c t k : ℕ) (hne : c ≠ t) :
    nthBit c (flipBit t k) = nthBit c k := by
  rw [flipBit_eq_setBit]
  exact nthBit_setBit_ne c t k _ hne
    (by rcases nthBit_eq_zero_or_one t k with h | h <;> omega)

theorem flipBit_inj (t k l : ℕ) (h : flipBit t k = flipBit t l) : k = l := by
  have := congrArg (flipBit t) h
  rwa [flipBit_flipBit, flipBit_flipBit] at this

theorem mod_two_pow_succ (p i : ℕ) :
    i % 2 ^ (p + 1) = 2 * (i / 2 % 2 ^ p) + i % 2 := by
  have ha := Nat.div_add_mod i (2 ^ (p + 1))
  have hb := Nat.div_add_mod (i / 2) (2 ^ p)
  have hc := Nat.div_add_mod i 2
  have hd : i / 2 / 2 ^ p = i / 2 ^ (p + 1) := by
    rw [Nat.div_div_eq_div_mul, pow_succ']
  have hm1 : i % 2 ^ (p + 1) < 2 ^ (p + 1) := Nat.mod_lt _ (Nat.two_pow_pos _)
  have hm2 : i / 2 % 2 ^ p < 2 ^ p := Nat.mod_lt _ (Nat.two_pow_pos _)
  have hx : 2 * (2 ^ p * (i / 2 ^ (p + 1))) = 2 ^ (p + 1) * (i / 2 ^ (p + 1)) := by
    rw [pow_succ']; ring
  rw [hd] at hb
  omega

theorem setBit_succ (p i e : ℕ) :
    setBit (p + 1) i e = 2 * setBit p (i / 2) e + i % 2 := by
  have h1 : i / 2 / 2 ^ (p + 1) = i / 2 ^ (p + 2) := by
    rw [Nat.div_div_eq_div_mul, pow_succ']
    congr 1
    ring
  rw [setBit, setBit, h1, mod_two_pow_succ]
  have h2 : 2 * (i / 2 ^ (p + 2) * 2 ^ (p + 1)) = i / 2 ^ (p + 2) * 2 ^ (p + 2) := by
    rw [pow_succ]; ring
  have h3 : 2 * (e * 2 ^ p) = e * 2 ^ (p + 1) := by rw [pow_succ]; ring
  ring_nf

theorem nthBit_zero (i : ℕ) : nthBit 0 i = i % 2 := by
  rw [nthBit, pow_zero, Nat.div_one]

theorem setBit_zero (i e : ℕ) : setBit 0 i e = i / 2 * 2 + e := by
  rw [setBit, pow_zero, pow_one, Nat.mod_one]
  ring

theorem sum_range_two_mul {M : Type _} [AddCommMonoid M] (m : ℕ) (f : ℕ → M) :
    ∑ i in Finset.range (2 * m), f i = ∑ q in Finset.range m, (f (2 * q) + f (2 * q + 1)) := by
  induction m with
  | zero => simp
  | succ n ih =>
      have h : 2 * (n + 1) = (2 * n + 1) + 1 := by ring
      rw [h, Finset.sum_range_succ, Finset.sum_range_succ, ih, Finset.sum_range_succ]
      abel

theorem list_range_filter_map_sum (n : ℕ) (p : ℕ → Bool) (f : ℕ → ℝ) :
    (((List.range n).filter p).map f).sum = ∑ i in Finset.range n, if p i then f i else 0 := by
  induction n with
  | zero => simp
  | succ n ih =>
      rw [List.range_succ, List.filter_append, List.map_append, List.sum_append,
        Finset.sum_range_succ, ih]
      by_cases h : p n <;> simp [h]

/-! ## Operators and `__expand_operator`

Embedding of the numpy matrices of `quantum_state.py`. A `2^k × 2^k`
complex matrix is a total function `ℕ → ℕ → ℂ` (entries outside the range
are junk `0` and are never read on the index range of interest).
`np.kron A B` for a `2×2` second factor reads, on flat indices,
`(A ⊗ B) i j = A (i/2) (j/2) * B (i%2) (j%2)`. -/

/-- The matrix `np.identity(2)`. -/
def I2 : ℕ → ℕ → ℂ := fun a b => if a = b then 1 else 0

/-- the `X` gate matrix `[[0,1],[1,0]]` -/
def xMat : ℕ → ℕ → ℂ := fun a b =>
  if a = 0 ∧ b = 1 then 1 else if a = 1 ∧ b = 0 then 1 else 0

/-- the `Z` gate matrix `[[1,0],[0,-1]]` -/
def zMat : ℕ → ℕ → ℂ := fun a b =>
  if a = 0 ∧ b = 0 then 1 else if a = 1 ∧ b = 1 then -1 else 0

/-- the `H` gate matrix `[[1,1],[1,-1]] / np.sqrt(2)` -/
def hMat : ℕ → ℕ → ℂ := fun a b =>
  (if a = 1 ∧ b = 1 then -1 else if a ≤ 1 ∧ b ≤ 1 then 1 else 0) / (Real.sqrt 2 : ℂ)

/-- Embeds `np.kron` with a `2×2` second factor, on flat indices. -/
def kron2 (A B : ℕ → ℕ → ℂ) : ℕ → ℕ → ℂ :=
  fun i j => A (i / 2) (j / 2) * B (i % 2) (j % 2)

/-- Embeds `operator @ state` for an `n × n` operator. -/
def matVec (n : ℕ) (M : ℕ → ℕ → ℂ) (v : ℕ → ℂ) : ℕ → ℂ :=
  fun i => ∑ j in Finset.range n, M i j * v j

/-- Embeds `QuantumState.__expand_operator(index, operation)`: iterated Kronecker
product of `n_qubits` factors, the factor at chain position `index` being
`operation` and all others `np.identity(2)`.  `index` is an `ℤ` because the
source computes it as `self.n_qubits - index - 1` on an arbitrary Python
int; a chain position outside `[0, n_qubits)` matches no factor, so the
result degenerates to the identity chain exactly as in the source. -/
def expandOperator (N : ℕ) (index : ℤ) (operation : ℕ → ℕ → ℂ) : ℕ → ℕ → ℂ :=
  (List.range' 1 (N - 1)).foldl
    (fun (op : ℕ → ℕ → ℂ) (i : ℕ) => kron2 op (if (i : ℤ) = index then operation else I2))
    (if index = 0 then operation else I2)

theorem expandOperator_succ (N : ℕ) (hN : 1 ≤ N) (index : ℤ) (op : ℕ → ℕ → ℂ) :
    expandOperator (N + 1) index op =
      kron2 (expandOperator N index op) (if (N : ℤ) = index then op else I2) := by
  have h1 : N + 1 - 1 = (N - 1) + 1 := by omega
  have h2 : 1 + (N - 1) = N := by omega
  simp only [expandOperator]
  rw [h1, List.range'_1_concat, h2, List.foldl_append]
  rfl

theorem expandOperator_one (index : ℤ) (op : ℕ → ℕ → ℂ) :
    expandOperator 1 index op = if index = 0 then op else I2 := rfl

theorem expandOperator_out_entries (N : ℕ) (index : ℤ) (op : ℕ → ℕ → ℂ)
    (hN : 1 ≤ N) (h : index < 0 ∨ (N : ℤ) ≤ index) :
    ∀ i j, i < 2 ^ N → j < 2 ^ N →
      expandOperator N index op i j = if i = j then 1 else 0 := by
  induction N with
  | zero => omega
  | succ n ih =>
      rcases Nat.eq_zero_or_pos n with hn | hn
      · subst hn
        intro i j hi hj
        have hne : ¬ index = 0 := by omega
        rw [expandOperator_one, if_neg hne, I2]
      · intro i j hi hj
        have hlast : ¬ ((n : ℤ) = index) := by omega
        rw [expandOperator_succ n hn index op, kron2, if_neg hlast]
        have hi2 : i / 2 < 2 ^ n := by
          rw [Nat.div_lt_iff_lt_mul (by norm_num)]
          calc i < 2 ^ (n + 1) := hi
            _ = 2 ^ n * 2 := by rw [pow_succ]
        have hj2 : j / 2 < 2 ^ n := by
          rw [Nat.div_lt_iff_lt_mul (by norm_num)]
          calc j < 2 ^ (n + 1) := hj
            _ = 2 ^ n * 2 := by rw [pow_succ]
        have hidx : index < 0 ∨ (n : ℤ) ≤ index := by omega
        rw [ih hn hidx (i / 2) (j / 2) hi2 hj2, I2]
        have hdm_i := Nat.div_add_mod i 2
        have hdm_j := Nat.div_add_mod j 2
        have hmi : i % 2 < 2 := Nat.mod_lt _ (by norm_num)
        have hmj : j % 2 < 2 := Nat.mod_lt _ (by norm_num)
        by_cases hdiv : i / 2 = j / 2
        · by_cases hmod : i % 2 = j % 2
          · have hij : i = j := by omega
            simp [hdiv, hmod, hij]
          · have hij : ¬ i = j := by omega
            simp [hdiv, hmod, hij]
        · have hij : ¬ i = j := by omega
          simp [hdiv, hij]

theorem expandOperator_out_apply (N : ℕ) (index : ℤ) (op : ℕ → ℕ → ℂ)
    (hN : 1 ≤ N) (h : index < 0 ∨ (N : ℤ) ≤ index) (v : ℕ → ℂ) (i : ℕ)
    (hi : i < 2 ^ N) :
    matVec (2 ^ N) (expandOperator N index op) v i = v i := by
  rw [matVec]
  calc ∑ j in Finset.range (2 ^ N), expandOperator N index op i j * v j
      = ∑ j in Finset.range (2 ^ N), if i = j then v j else 0 := by
        apply Finset.sum_congr rfl
        intro j hj
        rw [expandOperator_out_entries N index op hN h i j hi (Finset.mem_range.mp hj)]
        by_cases hij : i = j <;> simp [hij]
    _ = v i := by rw [Finset.sum_ite_eq, if_pos (Finset.mem_range.mpr hi)]

theorem div_two_lt_pow (n i : ℕ) (hi : i < 2 ^ (n + 1)) : i / 2 < 2 ^ n := by
  rw [Nat.div_lt_iff_lt_mul (by norm_num)]
  calc i < 2 ^ (n + 1) := hi
    _ = 2 ^ n * 2 := by rw [pow_succ]

theorem kron2_op_apply (n : ℕ) (C B : ℕ → ℕ → ℂ)
    (hC : ∀ a b, a < 2 ^ n → b < 2 ^ n → C a b = if a = b then 1 else 0)
    (v : ℕ → ℂ) (i : ℕ) (hi : i < 2 ^ (n + 1)) :
    matVec (2 ^ (n + 1)) (kron2 C B) v i =
      B (i % 2) 0 * v (2 * (i / 2)) + B (i % 2) 1 * v (2 * (i / 2) + 1) := by
  have hsplit : (2 : ℕ) ^ (n + 1) = 2 * 2 ^ n := by rw [pow_succ]; ring
  rw [matVec, hsplit, sum_range_two_mul]
  have hi2 : i / 2 < 2 ^ n := div_two_lt_pow n i hi
  have key : ∀ q ∈ Finset.range (2 ^ n),
      kron2 C B i (2 * q) * v (2 * q) + kron2 C B i (2 * q + 1) * v (2 * q + 1) =
        if i / 2 = q then B (i % 2) 0 * v (2 * q) + B (i % 2) 1 * v (2 * q + 1) else 0 := by
    intro q hq
    have hq2 : q < 2 ^ n := Finset.mem_range.mp hq
    have e1 : (2 * q) / 2 = q := by omega
    have e2 : (2 * q + 1) / 2 = q := by omega
    have e3 : (2 * q) % 2 = 0 := by omega
    have e4 : (2 * q + 1) % 2 = 1 := by omega
    rw [kron2, kron2, e1, e2, e3, e4, hC (i / 2) q hi2 hq2]
    by_cases hiq : i / 2 = q <;> simp [hiq] <;> ring
  rw [Finset.sum_congr rfl key, Finset.sum_ite_eq, if_pos (Finset.mem_range.mpr hi2)]

theorem kron2_id_apply (n : ℕ) (C : ℕ → ℕ → ℂ) (v : ℕ → ℂ) (i : ℕ)
    (hi : i < 2 ^ (n + 1)) :
    matVec (2 ^ (n + 1)) (kron2 C I2) v i =
      matVec (2 ^ n) C (fun q => v (2 * q + i % 2)) (i / 2) := by
  have hsplit : (2 : ℕ) ^ (n + 1) = 2 * 2 ^ n := by rw [pow_succ]; ring
  rw [matVec, matVec, hsplit, sum_range_two_mul]
  apply Finset.sum_congr rfl
  intro q hq
  have e1 : (2 * q) / 2 = q := by omega
  have e2 : (2 * q + 1) / 2 = q := by omega
  have e3 : (2 * q) % 2 = 0 := by omega
  have e4 : (2 * q + 1) % 2 = 1 := by omega
  rw [kron2, kron2, e1, e2, e3, e4]
  have him : i % 2 = 0 ∨ i % 2 = 1 := by omega
  rcases him with h | h <;> rw [h] <;> simp [I2] <;> ring

theorem expandOperator_apply (N : ℕ) (index : ℤ) (op : ℕ → ℕ → ℂ)
    (h0 : 0 ≤ index) (hN : index < (N : ℤ)) (v : ℕ → ℂ) (i : ℕ) (hi : i < 2 ^ N) :
    matVec (2 ^ N) (expandOperator N index op) v i =
      op (nthBit (N - 1 - index.toNat) i) 0 * v (setBit (N - 1 - index.toNat) i 0) +
      op (nthBit (N - 1 - index.toNat) i) 1 * v (setBit (N - 1 - index.toNat) i 1) := by
  induction N generalizing v i with
  | zero => omega
  | succ n ih =>
    rcases Nat.eq_zero_or_pos n with hn | hn
    · subst hn
      have hidx : index = 0 := by omega
      subst hidx
      rw [expandOperator_one, if_pos rfl, matVec]
      have h2 : (2 : ℕ) ^ 1 = 2 := rfl
      rw [h2, Finset.sum_range_succ, Finset.sum_range_succ, Finset.sum_range_zero]
      have hi2 : i < 2 := hi
      have hb : nthBit (0 + 1 - 1 - (0 : ℤ).toNat) i = i := by
        show nthBit 0 i = i
        rw [nthBit_zero]
        omega
      have hs0 : setBit (0 + 1 - 1 - (0 : ℤ).toNat) i 0 = 0 := by
        show setBit 0 i 0 = 0
        rw [setBit_zero]
        omega
      have hs1 : setBit (0 + 1 - 1 - (0 : ℤ).toNat) i 1 = 1 := by
        show setBit 0 i 1 = 1
        rw [setBit_zero]
        omega
      rw [hb, hs0, hs1]
      ring
    · by_cases hlast : (n : ℤ) = index
      · rw [expandOperator_succ n hn index op, if_pos hlast]
        have hC := expandOperator_out_entries n index op hn (by omega)
        rw [kron2_op_apply n _ op hC v i hi]
        have hp : n + 1 - 1 - index.toNat = 0 := by omega
        rw [hp, nthBit_zero, setBit_zero, setBit_zero]
        ring_nf
      · rw [expandOperator_succ n hn index op, if_neg hlast]
        rw [kron2_id_apply n _ v i hi]
        have hi2 : i / 2 < 2 ^ n := div_two_lt_pow n i hi
        rw [ih (by omega) _ (i / 2) hi2]
        have hp : n - 1 - index.toNat + 1 = n + 1 - 1 - index.toNat := by omega
        have hb : nthBit (n - 1 - index.toNat) (i / 2) = nthBit (n + 1 - 1 - index.toNat) i := by
          have := nthBit_div 1 (n - 1 - index.toNat) i
          rw [pow_one] at this
          rw [this]
          congr 1
          omega
        have hs : ∀ e, 2 * setBit (n - 1 - index.toNat) (i / 2) e + i % 2 =
            setBit (n + 1 - 1 - index.toNat) i e := by
          intro e
          rw [← hp, setBit_succ]
        rw [hb, hs 0, hs 1]

/-- Embeds `np.abs(np.square(num))` from `utils.abs_squared`: for a complex number
this is `|z²| = |z|²`, the squared magnitude. -/
def abs_squared (num : ℂ) : ℝ := Complex.abs (num ^ 2)

theorem abs_squared_eq_normSq (z : ℂ) : abs_squared z = Complex.normSq z := by
  rw [abs_squared, map_pow, Complex.sq_abs]

/-- The sum of squared magnitudes of the first `n` amplitudes of a
statevector (the quantity the spec's normalization invariant is about). -/
def sumSq (n : ℕ) (v : ℕ → ℂ) : ℝ := ∑ i in Finset.range n, Complex.normSq (v i)

/-- A 2×2 operator matrix preserves the squared norm of every complex pair.
This is what unitarity buys for the concrete gate matrices. -/
def PairIsometry (op : ℕ → ℕ → ℂ) : Prop :=
  ∀ a b : ℂ,
    Complex.normSq (op 0 0 * a + op 0 1 * b) + Complex.normSq (op 1 0 * a + op 1 1 * b) =
      Complex.normSq a + Complex.normSq b

theorem expandOperator_sumSq (N : ℕ) (hN : 1 ≤ N) (index : ℤ) (op : ℕ → ℕ → ℂ)
    (hop : PairIsometry op) (v : ℕ → ℂ) :
    sumSq (2 ^ N) (matVec (2 ^ N) (expandOperator N index op) v) = sumSq (2 ^ N) v := by
  induction N generalizing v with
  | zero => omega
  | succ n ih =>
    rcases Nat.eq_zero_or_pos n with hn | hn
    · subst hn
      by_cases hidx : index = 0
      · subst hidx
        rw [expandOperator_one, if_pos rfl]
        have h2 : (2 : ℕ) ^ 1 = 2 := rfl
        rw [sumSq, sumSq, h2, Finset.sum_range_succ, Finset.sum_range_succ,
          Finset.sum_range_zero, Finset.sum_range_succ, Finset.sum_range_succ,
          Finset.sum_range_zero]
        have hm : ∀ i : ℕ, matVec 2 op v i = op i 0 * v 0 + op i 1 * v 1 := by
          intro i
          rw [matVec, Finset.sum_range_succ, Finset.sum_range_succ, Finset.sum_range_zero]
          ring
        rw [hm 0, hm 1]
        have := hop (v 0) (v 1)
        linarith
      · rw [sumSq, sumSq]
        apply Finset.sum_congr rfl
        intro i hi
        rw [expandOperator_out_apply 1 index op (by norm_num) (by omega) v i
          (Finset.mem_range.mp hi)]
    · by_cases hlast : (n : ℤ) = index
      · rw [expandOperator_succ n hn index op, if_pos hlast]
        have hC := expandOperator_out_entries n index op hn (by omega)
        have hsplit : (2 : ℕ) ^ (n + 1) = 2 * 2 ^ n := by rw [pow_succ]; ring
        rw [sumSq, sumSq, hsplit, sum_range_two_mul, sum_range_two_mul]
        apply Finset.sum_congr rfl
        intro q hq
        have hq2 : q < 2 ^ n := Finset.mem_range.mp hq
        have hlt0 : 2 * q < 2 ^ (n + 1) := by
          rw [hsplit]; omega
        have hlt1 : 2 * q + 1 < 2 ^ (n + 1) := by
          rw [hsplit]; omega
        have k0 := kron2_op_apply n _ op hC v (2 * q) hlt0
        have k1 := kron2_op_apply n _ op hC v (2 * q + 1) hlt1
        rw [hsplit] at k0 k1
        rw [k0, k1]
        have e1 : (2 * q) / 2 = q := by omega
        have e2 : (2 * q + 1) / 2 = q := by omega
        have e3 : (2 * q) % 2 = 0 := by omega
        have e4 : (2 * q + 1) % 2 = 1 := by omega
        rw [e1, e2, e3, e4]
        exact hop (v (2 * q)) (v (2 * q + 1))
      · rw [expandOperator_succ n hn index op, if_neg hlast]
        have hsplit : (2 : ℕ) ^ (n + 1) = 2 * 2 ^ n := by rw [pow_succ]; ring
        rw [sumSq, sumSq, hsplit, sum_range_two_mul, sum_range_two_mul]
        have key : ∀ q ∈ Finset.range (2 ^ n),
            Complex.normSq (matVec (2 * 2 ^ n) (kron2 (expandOperator n index op)
                I2) v (2 * q)) +
              Complex.normSq (matVec (2 * 2 ^ n) (kron2 (expandOperator n index op)
                I2) v (2 * q + 1)) =
            Complex.normSq (matVec (2 ^ n) (expandOperator n index op)
                (fun u => v (2 * u)) q) +
              Complex.normSq (matVec (2 ^ n) (expandOperator n index op)
                (fun u => v (2 * u + 1)) q) := by
          intro q hq
          have hq2 : q < 2 ^ n := Finset.mem_range.mp hq
          have hlt0 : 2 * q < 2 ^ (n + 1) := by rw [hsplit]; omega
          have hlt1 : 2 * q + 1 < 2 ^ (n + 1) := by rw [hsplit]; omega
          have k0 := kron2_id_apply n (expandOperator n index op) v (2 * q) hlt0
          have k1 := kron2_id_apply n (expandOperator n index op) v (2 * q + 1) hlt1
          rw [hsplit] at k0 k1
          have e1 : (2 * q) / 2 = q := by omega
          have e2 : (2 * q + 1) / 2 = q := by omega
          have e3 : (2 * q) % 2 = 0 := by omega
          have e4 : (2 * q + 1) % 2 = 1 := by omega
          rw [e1, e3] at k0
          rw [e2, e4] at k1
          rw [k0, k1]
          have w0 : (fun u => v (2 * u + 0)) = (fun u => v (2 * u)) := by
            funext u
            rw [Nat.add_zero]
          rw [w0]
        rw [Finset.sum_congr rfl key, Finset.sum_add_distrib]
        have ih0 := ih hn (fun u => v (2 * u))
        have ih1 := ih hn (fun u => v (2 * u + 1))
        simp only [sumSq] at ih0 ih1
        rw [ih0, ih1, ← Finset.sum_add_distrib]

theorem xMat_pairIsometry : PairIsometry xMat := by
  intro a b
  have e00 : xMat 0 0 = 0 := by norm_num [xMat]
  have e01 : xMat 0 1 = 1 := by norm_num [xMat]
  have e10 : xMat 1 0 = 1 := by norm_num [xMat]
  have e11 : xMat 1 1 = 0 := by norm_num [xMat]
  rw [e00, e01, e10, e11]
  simp only [zero_mul, one_mul, zero_add, add_zero]
  exact add_comm _ _

theorem zMat_pairIsometry : PairIsometry zMat := by
  intro a b
  have e00 : zMat 0 0 = 1 := by norm_num [zMat]
  have e01 : zMat 0 1 = 0 := by norm_num [zMat]
  have e10 : zMat 1 0 = 0 := by norm_num [zMat]
  have e11 : zMat 1 1 = -1 := by norm_num [zMat]
  rw [e00, e01, e10, e11]
  simp only [zero_mul, one_mul, zero_add, add_zero, neg_one_mul]
  rw [Complex.normSq_neg]

theorem hMat00 : hMat 0 0 = 1 / (Real.sqrt 2 : ℂ) := by norm_num [hMat]

theorem hMat01 : hMat 0 1 = 1 / (Real.sqrt 2 : ℂ) := by norm_num [hMat]

theorem hMat10 : hMat 1 0 = 1 / (Real.sqrt 2 : ℂ) := by norm_num [hMat]

theorem hMat11 : hMat 1 1 = -(1 / (Real.sqrt 2 : ℂ)) := by norm_num [hMat, neg_div, one_div]

theorem sqrt_two_sq_complex :
    ((Real.sqrt 2 : ℝ) : ℂ) * ((Real.sqrt 2 : ℝ) : ℂ) = 2 := by
  rw [← Complex.ofReal_mul, Real.mul_self_sqrt (by norm_num)]
  norm_num

theorem sqrt_two_ne_zero_complex : ((Real.sqrt 2 : ℝ) : ℂ) ≠ 0 := by
  rw [Complex.ofReal_ne_zero]
  have := Real.sqrt_pos.mpr (by norm_num : (0 : ℝ) < 2)
  exact ne_of_gt this

theorem hMat_pairIsometry : PairIsometry hMat := by
  intro a b
  rw [hMat00, hMat01, hMat10, hMat11]
  have e1 : 1 / (Real.sqrt 2 : ℂ) * a + 1 / (Real.sqrt 2 : ℂ) * b =
      (a + b) / (Real.sqrt 2 : ℂ) := by ring
  have e2 : 1 / (Real.sqrt 2 : ℂ) * a + -(1 / (Real.sqrt 2 : ℂ)) * b =
      (a - b) / (Real.sqrt 2 : ℂ) := by ring
  rw [e1, e2, Complex.normSq_div, Complex.normSq_div]
  have hs : Complex.normSq ((Real.sqrt 2 : ℝ) : ℂ) = 2 := by
    rw [Complex.normSq_ofReal, Real.mul_self_sqrt (by norm_num)]
  rw [hs, Complex.normSq_add, Complex.normSq_sub]
  ring

/-- Embeds `QuantumState.X(index)`: bit flip via operator expansion; the source
first rewrites `index` to `self.n_qubits - index - 1`. -/
def Xg (N : ℕ) (index : ℤ) (s : ℕ → ℂ) : ℕ → ℂ :=
  matVec (2 ^ N) (expandOperator N ((N : ℤ) - index - 1) xMat) s

/-- Embeds `QuantumState.Z(index)`: phase flip via operator expansion. -/
def Zg (N : ℕ) (index : ℤ) (s : ℕ → ℂ) : ℕ → ℂ :=
  matVec (2 ^ N) (expandOperator N ((N : ℤ) - index - 1) zMat) s

/-- Embeds `QuantumState.H(index)`: Hadamard via operator expansion. -/
def Hg (N : ℕ) (index : ℤ) (s : ℕ → ℂ) : ℕ → ℂ :=
  matVec (2 ^ N) (expandOperator N ((N : ℤ) - index - 1) hMat) s

theorem internal_toNat (N i : ℕ) (hi : i < N) :
    (((N : ℤ) - (i : ℤ) - 1)).toNat = N - 1 - i := by omega

theorem internal_pos (N i : ℕ) (hi : i < N) :
    (0 : ℤ) ≤ (N : ℤ) - (i : ℤ) - 1 ∧ (N : ℤ) - (i : ℤ) - 1 < (N : ℤ) := by omega

theorem chain_pos_eq (N i : ℕ) (hi : i < N) : N - 1 - (N - 1 - i) = i := by omega

theorem Xg_apply (N i : ℕ) (hi : i < N) (s : ℕ → ℂ) (j : ℕ) (hj : j < 2 ^ N) :
    Xg N (i : ℤ) s j = s (flipBit i j) := by
  obtain ⟨h0, hN⟩ := internal_pos N i hi
  rw [Xg, expandOperator_apply N _ xMat h0 hN s j hj, internal_toNat N i hi,
    chain_pos_eq N i hi]
  rcases nthBit_eq_zero_or_one i j with hb | hb
  · rw [hb, flipBit_eq_setBit, hb]
    norm_num [xMat]
  · rw [hb, flipBit_eq_setBit, hb]
    norm_num [xMat]

theorem Zg_apply (N i : ℕ) (hi : i < N) (s : ℕ → ℂ) (j : ℕ) (hj : j < 2 ^ N) :
    Zg N (i : ℤ) s j = (if nthBit i j = 1 then -1 else 1) * s j := by
  obtain ⟨h0, hN⟩ := internal_pos N i hi
  rw [Zg, expandOperator_apply N _ zMat h0 hN s j hj, internal_toNat N i hi,
    chain_pos_eq N i hi]
  rcases nthBit_eq_zero_or_one i j with hb | hb
  · rw [hb]
    have hs : setBit i j 0 = j := by
      conv_rhs => rw [← setBit_self i j, hb]
    rw [hs]
    norm_num [zMat]
  · rw [hb]
    have hs : setBit i j 1 = j := by
      conv_rhs => rw [← setBit_self i j, hb]
    rw [hs]
    norm_num [zMat]

theorem Hg_apply (N i : ℕ) (hi : i < N) (s : ℕ → ℂ) (j : ℕ) (hj : j < 2 ^ N) :
    Hg N (i : ℤ) s j =
      hMat (nthBit i j) 0 * s (setBit i j 0) + hMat (nthBit i j) 1 * s (setBit i j 1) := by
  obtain ⟨h0, hN⟩ := internal_pos N i hi
  rw [Hg, expandOperator_apply N _ hMat h0 hN s j hj, internal_toNat N i hi,
    chain_pos_eq N i hi]

theorem Hg_Hg_apply (N i : ℕ) (hi : i < N) (s : ℕ → ℂ) (j : ℕ) (hj : j < 2 ^ N) :
    Hg N (i : ℤ) (Hg N (i : ℤ) s) j = s j := by
  have hj0 : setBit i j 0 < 2 ^ N := setBit_lt N i j 0 hi hj (by norm_num)
  have hj1 : setBit i j 1 < 2 ^ N := setBit_lt N i j 1 hi hj (by norm_num)
  rw [Hg_apply N i hi _ j hj, Hg_apply N i hi s _ hj0, Hg_apply N i hi s _ hj1]
  rw [setBit_eq i j 0 (by norm_num), setBit_eq i j 1 (by norm_num),
    setBit_setBit i j 0 0 (by norm_num), setBit_setBit i j 0 1 (by norm_num),
    setBit_setBit i j 1 0 (by norm_num), setBit_setBit i j 1 1 (by norm_num)]
  have hs2 := sqrt_two_sq_complex
  have hne := sqrt_two_ne_zero_complex
  rcases nthBit_eq_zero_or_one i j with hb | hb
  · rw [hb]
    have hj' : setBit i j 0 = j := by
      conv_rhs => rw [← setBit_self i j, hb]
    rw [hMat00, hMat01, hMat10, hMat11, hj']
    field_simp
    rw [hs2]
    ring
  · rw [hb]
    have hj' : setBit i j 1 = j := by
      conv_rhs => rw [← setBit_self i j, hb]
    rw [hMat00, hMat01, hMat10, hMat11, hj']
    field_simp
    rw [hs2]
    ring

theorem Xg_applyZ (N : ℕ) (i : ℤ) (h0 : 0 ≤ i) (hiN : i < (N : ℤ)) (s : ℕ → ℂ)
    (j : ℕ) (hj : j < 2 ^ N) : Xg N i s j = s (flipBit i.toNat j) := by
  have hi : i.toNat < N := by omega
  have hcast : ((i.toNat : ℕ) : ℤ) = i := by omega
  rw [← hcast]
  exact Xg_apply N i.toNat hi s j hj

theorem Zg_applyZ (N : ℕ) (i : ℤ) (h0 : 0 ≤ i) (hiN : i < (N : ℤ)) (s : ℕ → ℂ)
    (j : ℕ) (hj : j < 2 ^ N) :
    Zg N i s j = (if nthBit i.toNat j = 1 then -1 else 1) * s j := by
  have hi : i.toNat < N := by omega
  have hcast : ((i.toNat : ℕ) : ℤ) = i := by omega
  rw [← hcast]
  exact Zg_apply N i.toNat hi s j hj

theorem Hg_applyZ (N : ℕ) (i : ℤ) (h0 : 0 ≤ i) (hiN : i < (N : ℤ)) (s : ℕ → ℂ)
    (j : ℕ) (hj : j < 2 ^ N) :
    Hg N i s j =
      hMat (nthBit i.toNat j) 0 * s (setBit i.toNat j 0) +
        hMat (nthBit i.toNat j) 1 * s (setBit i.toNat j 1) := by
  have hi : i.toNat < N := by omega
  have hcast : ((i.toNat : ℕ) : ℤ) = i := by omega
  rw [← hcast]
  exact Hg_apply N i.toNat hi s j hj

theorem Xg_out_apply (N : ℕ) (hN : 1 ≤ N) (index : ℤ)
    (h : index < 0 ∨ (N : ℤ) ≤ index) (s : ℕ → ℂ) (j : ℕ) (hj : j < 2 ^ N) :
    Xg N index s j = s j :=
  expandOperator_out_apply N _ xMat hN (by omega) s j hj

theorem Zg_out_apply (N : ℕ) (hN : 1 ≤ N) (index : ℤ)
    (h : index < 0 ∨ (N : ℤ) ≤ index) (s : ℕ → ℂ) (j : ℕ) (hj : j < 2 ^ N) :
    Zg N index s j = s j :=
  expandOperator_out_apply N _ zMat hN (by omega) s j hj

theorem Hg_out_apply (N : ℕ) (hN : 1 ≤ N) (index : ℤ)
    (h : index < 0 ∨ (N : ℤ) ≤ index) (s : ℕ → ℂ) (j : ℕ) (hj : j < 2 ^ N) :
    Hg N index s j = s j :=
  expandOperator_out_apply N _ hMat hN (by omega) s j hj

/-! ## Measurement

`QuantumState.measure(index)` first checks the range, then converts the
logical index to the string position `n_qubits - index - 1`, computes
`prob_0` over `get_qubit_indices`, draws the outcome, masks the amplitudes
of the other outcome to zero and divides by the square root of the kept
probability mass. The uniform draw `random()` becomes an explicit
parameter `r`. -/

/-- Embeds `QuantumState.get_qubit_indices(index, outcome)`: `index` is a string
position into the MSB-first binary representation, so it reads the binary
digit of weight `2^(n_qubits - 1 - index)`. -/
def getQubitIndices (N sp outcome : ℕ) : List ℕ :=
  (List.range (2 ^ N)).filter (fun i => nthBit (N - 1 - sp) i == outcome)

/-- Embeds `probs = np.abs(np.square(self.state))`. -/
def measProbs (s : ℕ → ℂ) : ℕ → ℝ := fun i => abs_squared (s i)

/-- Embeds `sum(probs[i] for i in self.get_qubit_indices(index, outcome))`. -/
def measMass (N sp outcome : ℕ) (s : ℕ → ℂ) : ℝ :=
  ((getQubitIndices N sp outcome).map (measProbs s)).sum

/-- Embeds `result = 0 if random() < prob_0 else 1`. -/
def measResult (N sp : ℕ) (s : ℕ → ℂ) (r : ℝ) : ℕ :=
  if r < measMass N sp 0 s then 0 else 1

/-- the two mutation lines of `measure`: `self.state *= mask` followed by
`self.state /= np.sqrt(sum(probs[indices]))` (the mass is computed from the
pre-collapse `probs`, as in the source). -/
def collapse (N sp res : ℕ) (s : ℕ → ℂ) : ℕ → ℂ :=
  fun i => s i * (if i ∈ getQubitIndices N sp res then 1 else 0) /
    ((Real.sqrt (measMass N sp res s) : ℝ) : ℂ)

/-- Embeds `QuantumState.measure(index)` (named `measureQ` because core Lean
already declares a global `measure`). -/
def measureQ (N : ℕ) (index : ℤ) (s : ℕ → ℂ) (r : ℝ) : Except QErr (ℕ × (ℕ → ℂ)) :=
  if index < 0 ∨ (N : ℤ) ≤ index then .error .rangeErr
  else
    .ok (measResult N ((N : ℤ) - index - 1).toNat s r,
      collapse N ((N : ℤ) - index - 1).toNat (measResult N ((N : ℤ) - index - 1).toNat s r) s)

theorem mem_getQubitIndices (N sp o i : ℕ) :
    i ∈ getQubitIndices N sp o ↔ i < 2 ^ N ∧ nthBit (N - 1 - sp) i = o := by
  rw [getQubitIndices, List.mem_filter, List.mem_range]
  simp only [beq_iff_eq]

theorem measMass_eq_sum (N sp o : ℕ) (s : ℕ → ℂ) :
    measMass N sp o s =
      ∑ i in Finset.range (2 ^ N),
        if nthBit (N - 1 - sp) i = o then Complex.normSq (s i) else 0 := by
  rw [measMass, getQubitIndices, list_range_filter_map_sum]
  apply Finset.sum_congr rfl
  intro i hi
  by_cases h : nthBit (N - 1 - sp) i = o <;>
    simp [h, measProbs, abs_squared_eq_normSq]

theorem measMass_total (N sp : ℕ) (s : ℕ → ℂ) :
    measMass N sp 0 s + measMass N sp 1 s = sumSq (2 ^ N) s := by
  rw [measMass_eq_sum, measMass_eq_sum, sumSq, ← Finset.sum_add_distrib]
  apply Finset.sum_congr rfl
  intro i hi
  rcases nthBit_eq_zero_or_one (N - 1 - sp) i with h | h <;> simp [h]

theorem measMass_nonneg (N sp o : ℕ) (s : ℕ → ℂ) : 0 ≤ measMass N sp o s := by
  rw [measMass_eq_sum]
  apply Finset.sum_nonneg
  intro i hi
  by_cases h : nthBit (N - 1 - sp) i = o <;> simp [h, Complex.normSq_nonneg]

theorem collapse_apply_mem (N sp res : ℕ) (s : ℕ → ℂ) (i : ℕ)
    (h : i ∈ getQubitIndices N sp res) :
    collapse N sp res s i = s i / ((Real.sqrt (measMass N sp res s) : ℝ) : ℂ) := by
  rw [collapse, if_pos h, mul_one]

theorem collapse_apply_not_mem (N sp res : ℕ) (s : ℕ → ℂ) (i : ℕ)
    (h : i ∉ getQubitIndices N sp res) :
    collapse N sp res s i = 0 := by
  rw [collapse, if_neg h, mul_zero, zero_div]

theorem normSq_div_sqrt (z : ℂ) (m : ℝ) (hm : 0 ≤ m) :
    Complex.normSq (z / ((Real.sqrt m : ℝ) : ℂ)) = Complex.normSq z / m := by
  rw [Complex.normSq_div, Complex.normSq_ofReal, Real.mul_self_sqrt hm]

theorem sumSq_collapse (N sp res : ℕ) (s : ℕ → ℂ)
    (hm : 0 < measMass N sp res s) :
    sumSq (2 ^ N) (collapse N sp res s) = 1 := by
  have key : ∀ i ∈ Finset.range (2 ^ N),
      Complex.normSq (collapse N sp res s i) =
        (if nthBit (N - 1 - sp) i = res then Complex.normSq (s i) else 0) /
          measMass N sp res s := by
    intro i hi
    have hilt : i < 2 ^ N := Finset.mem_range.mp hi
    by_cases h : nthBit (N - 1 - sp) i = res
    · have hmem : i ∈ getQubitIndices N sp res := (mem_getQubitIndices N sp res i).mpr ⟨hilt, h⟩
      rw [collapse_apply_mem N sp res s i hmem, if_pos h,
        normSq_div_sqrt _ _ (measMass_nonneg N sp res s)]
    · have hmem : i ∉ getQubitIndices N sp res := by
        rw [mem_getQubitIndices]
        tauto
      rw [collapse_apply_not_mem N sp res s i hmem, if_neg h, map_zero, zero_div]
  rw [sumSq, Finset.sum_congr rfl key, ← Finset.sum_div, ← measMass_eq_sum,
    div_self (ne_of_gt hm)]

theorem measMass_collapse_same (N sp res : ℕ) (s : ℕ → ℂ)
    (hm : 0 < measMass N sp res s) :
    measMass N sp res (collapse N sp res s) = 1 := by
  have h := sumSq_collapse N sp res s hm
  rw [measMass_eq_sum]
  rw [sumSq] at h
  calc ∑ i in Finset.range (2 ^ N),
        (if nthBit (N - 1 - sp) i = res then Complex.normSq (collapse N sp res s i) else 0)
      = ∑ i in Finset.range (2 ^ N), Complex.normSq (collapse N sp res s i) := by
        apply Finset.sum_congr rfl
        intro i hi
        by_cases hb : nthBit (N - 1 - sp) i = res
        · rw [if_pos hb]
        · rw [if_neg hb, collapse_apply_not_mem N sp res s i
            (by rw [mem_getQubitIndices]; tauto), map_zero]
    _ = 1 := h

theorem measMass_collapse_other (N sp res o : ℕ) (s : ℕ → ℂ) (ho : o ≠ res) :
    measMass N sp o (collapse N sp res s) = 0 := by
  rw [measMass_eq_sum]
  apply Finset.sum_eq_zero
  intro i hi
  by_cases hb : nthBit (N - 1 - sp) i = o
  · rw [if_pos hb, collapse_apply_not_mem N sp res s i
      (by rw [mem_getQubitIndices]; intro hc; exact ho (hb ▸ hc.2.symm ▸ rfl))]
    · exact map_zero _
  · rw [if_neg hb]

/-! ## CNOT

`QuantumState.CNOT(control, target)` converts both indices to string
positions, then loops over all basis indices building `new_state`: rows
whose control character is `'1'` are accumulated (`+=`) at the index with
the target character replaced, other rows are copied. Python string
subscripts accept positions in `[-len, len)` (negative ones wrap) and
raise `IndexError` otherwise; `pyStrPos` embeds that rule. -/

def pyStrPos (len : ℕ) (k : ℤ) : Option ℕ :=
  if 0 ≤ k ∧ k < (len : ℤ) then some k.toNat
  else if -(len : ℤ) ≤ k ∧ k < 0 then some (k + len).toNat
  else none

/-- One iteration of the `CNOT` loop over basis index `i`, acting on the
accumulator `new_state`; `wc`/`wt` are the binary-digit weights read by the
control/target string positions. -/
def cnotStep (wc wt : ℕ) (s : ℕ → ℂ) (ns : ℕ → ℂ) (i : ℕ) : ℕ → ℂ :=
  if nthBit wc i = 1 then
    fun k => if k = flipBit wt i then ns k + s i else ns k
  else
    fun k => if k = i then s i else ns k

/-- The `for i in range(len(self.state))` loop of `CNOT`, starting from
`np.zeros_like(self.state)`. -/
def cnotCore (N wc wt : ℕ) (s : ℕ → ℂ) : ℕ → ℂ :=
  (List.range (2 ^ N)).foldl (cnotStep wc wt s) (fun _ => 0)

/-- Embeds `QuantumState.CNOT(control, target)`. -/
def CNOT (N : ℕ) (control target : ℤ) (s : ℕ → ℂ) : Except QErr (ℕ → ℂ) :=
  match pyStrPos N ((N : ℤ) - control - 1), pyStrPos N ((N : ℤ) - target - 1) with
  | some cp, some tp => .ok (cnotCore N (N - 1 - cp) (N - 1 - tp) s)
  | _, _ => .error .indexErr

theorem ge_pow_of_bit_one (wc m : ℕ) (h : nthBit wc m = 1) : 2 ^ wc ≤ m := by
  by_contra hlt
  rw [nthBit, Nat.div_eq_of_lt (by omega)] at h
  omega

theorem nthBit_add_pow (wc k : ℕ) (h : nthBit wc k = 0) :
    nthBit wc (k + 2 ^ wc) = 1 := by
  have hf := nthBit_flipBit wc k
  rw [flipBit, if_neg (by omega), h] at hf
  exact hf

theorem flipBit_of_bit_one (wc m : ℕ) (h : nthBit wc m = 1) :
    flipBit wc m = m - 2 ^ wc := by
  rw [flipBit, if_pos h]

theorem cnotCore_fold_ne (wc wt : ℕ) (hne : wc ≠ wt) (s : ℕ → ℂ) (m : ℕ) :
    ∀ k, ((List.range m).foldl (cnotStep wc wt s) (fun _ => 0)) k =
      if nthBit wc k = 1 then
        (if flipBit wt k < m then s (flipBit wt k) else 0)
      else (if k < m then s k else 0) := by
  induction m with
  | zero =>
      intro k
      simp only [List.range_zero, List.foldl_nil, Nat.not_lt_zero, if_false]
      split <;> rfl
  | succ m ih =>
      intro k
      rw [List.range_succ, List.foldl_append, List.foldl_cons, List.foldl_nil]
      rw [cnotStep]
      by_cases hm1 : nthBit wc m = 1
      · rw [if_pos hm1]
        by_cases hk : k = flipBit wt m
        · rw [if_pos hk, ih k]
          have hbk : nthBit wc k = 1 := by
            rw [hk, nthBit_flipBit_ne wc wt m hne, hm1]
          have hfk : flipBit wt k = m := by
            rw [hk, flipBit_flipBit]
          rw [if_pos hbk, if_pos hbk, hfk, if_neg (by omega), if_pos (by omega)]
          ring
        · rw [if_neg hk, ih k]
          by_cases hbk : nthBit wc k = 1
          · rw [if_pos hbk, if_pos hbk]
            have hne2 : flipBit wt k ≠ m := by
              intro hc
              apply hk
              rw [← hc, flipBit_flipBit]
            by_cases hlt : flipBit wt k < m
            · rw [if_pos hlt, if_pos (by omega)]
            · rw [if_neg hlt, if_neg (by omega)]
          · rw [if_neg hbk, if_neg hbk]
            have hne2 : k ≠ m := by
              intro hc
              rw [hc] at hbk
              exact hbk hm1
            by_cases hlt : k < m
            · rw [if_pos hlt, if_pos (by omega)]
            · rw [if_neg hlt, if_neg (by omega)]
      · rw [if_neg hm1]
        have hm0 : nthBit wc m = 0 := by
          rcases nthBit_eq_zero_or_one wc m with h | h
          · exact h
          · exact absurd h hm1
        by_cases hk : k = m
        · rw [if_pos hk, hk, if_neg (by rw [hm0]; omega), if_pos (by omega)]
        · rw [if_neg hk, ih k]
          by_cases hbk : nthBit wc k = 1
          · rw [if_pos hbk, if_pos hbk]
            have hne2 : flipBit wt k ≠ m := by
              intro hc
              have : nthBit wc m = 1 := by
                rw [← hc, nthBit_flipBit_ne wc wt k hne, hbk]
              omega
            by_cases hlt : flipBit wt k < m
            · rw [if_pos hlt, if_pos (by omega)]
            · rw [if_neg hlt, if_neg (by omega)]
          · rw [if_neg hbk, if_neg hbk]
            by_cases hlt : k < m
            · rw [if_pos hlt, if_pos (by omega)]
            · rw [if_neg hlt, if_neg (by omega)]

theorem cnotCore_apply_ne (N wc wt : ℕ) (hne : wc ≠ wt) (hwt : wt < N)
    (s : ℕ → ℂ) (k : ℕ) (hk : k < 2 ^ N) :
    cnotCore N wc wt s k = if nthBit wc k = 1 then s (flipBit wt k) else s k := by
  rw [cnotCore, cnotCore_fold_ne wc wt hne s (2 ^ N) k]
  have hflt : flipBit wt k < 2 ^ N := flipBit_lt N wt k hwt hk
  by_cases h : nthBit wc k = 1
  · rw [if_pos h, if_pos h, if_pos hflt]
  · rw [if_neg h, if_neg h, if_pos hk]

theorem cnotCore_fold_eq (wc : ℕ) (s : ℕ → ℂ) (m : ℕ) :
    ∀ k, ((List.range m).foldl (cnotStep wc wc s) (fun _ => 0)) k =
      if nthBit wc k = 1 then 0
      else (if k < m then s k else 0) + (if k + 2 ^ wc < m then s (k + 2 ^ wc) else 0) := by
  induction m with
  | zero =>
      intro k
      simp only [List.range_zero, List.foldl_nil, Nat.not_lt_zero, if_false, add_zero]
      split <;> rfl
  | succ m ih =>
      intro k
      rw [List.range_succ, List.foldl_append, List.foldl_cons, List.foldl_nil]
      rw [cnotStep]
      have hpow : (0 : ℕ) < 2 ^ wc := Nat.two_pow_pos wc
      by_cases hm1 : nthBit wc m = 1
      · rw [if_pos hm1]
        have hmge : 2 ^ wc ≤ m := ge_pow_of_bit_one wc m hm1
        have hjm : flipBit wc m = m - 2 ^ wc := flipBit_of_bit_one wc m hm1
        by_cases hk : k = flipBit wc m
        · rw [if_pos hk, ih k]
          have hbk : nthBit wc k = 0 := by
            rw [hk, nthBit_flipBit, hm1]
          have hkm : k = m - 2 ^ wc := by rw [hk, hjm]
          have hklt : k < m := by omega
          have hsm : k + 2 ^ wc = m := by omega
          rw [if_neg (by omega : ¬ nthBit wc k = 1),
            if_neg (by omega : ¬ nthBit wc k = 1), if_pos hklt,
            if_pos (by omega : k < m + 1),
            if_neg (by omega : ¬ k + 2 ^ wc < m),
            if_pos (by omega : k + 2 ^ wc < m + 1), hsm]
          ring
        · rw [if_neg hk, ih k]
          rw [hjm] at hk
          by_cases hbk : nthBit wc k = 1
          · rw [if_pos hbk, if_pos hbk]
          · have hb0 : nthBit wc k = 0 := by
              rcases nthBit_eq_zero_or_one wc k with h | h
              · exact h
              · exact absurd h hbk
            rw [if_neg hbk, if_neg hbk]
            have hne2 : k ≠ m := by
              intro hc
              rw [hc, hm1] at hb0
              omega
            have hne3 : k + 2 ^ wc ≠ m := by omega
            by_cases hlt : k < m
            · rw [if_pos hlt, if_pos (by omega : k < m + 1)]
              by_cases hlt2 : k + 2 ^ wc < m
              · rw [if_pos hlt2, if_pos (by omega : k + 2 ^ wc < m + 1)]
              · rw [if_neg hlt2, if_neg (by omega : ¬ k + 2 ^ wc < m + 1)]
            · rw [if_neg hlt, if_neg (by omega : ¬ k < m + 1),
                if_neg (by omega : ¬ k + 2 ^ wc < m),
                if_neg (by omega : ¬ k + 2 ^ wc < m + 1)]
      · rw [if_neg hm1]
        have hm0 : nthBit wc m = 0 := by
          rcases nthBit_eq_zero_or_one wc m with h | h
          · exact h
          · exact absurd h hm1
        by_cases hk : k = m
        · rw [if_pos hk, hk,
            if_neg (by omega : ¬ nthBit wc m = 1), if_pos (by omega : m < m + 1),
            if_neg (by omega : ¬ m + 2 ^ wc < m + 1)]
          ring
        · rw [if_neg hk, ih k]
          by_cases hbk : nthBit wc k = 1
          · rw [if_pos hbk, if_pos hbk]
          · have hb0 : nthBit wc k = 0 := by
              rcases nthBit_eq_zero_or_one wc k with h | h
              · exact h
              · exact absurd h hbk
            rw [if_neg hbk, if_neg hbk]
            have hne3 : k + 2 ^ wc ≠ m := by
              intro hc
              have hx := nthBit_add_pow wc k hb0
              rw [hc, hm0] at hx
              omega
            by_cases hlt : k < m
            · rw [if_pos hlt, if_pos (by omega : k < m + 1)]
              by_cases hlt2 : k + 2 ^ wc < m
              · rw [if_pos hlt2, if_pos (by omega : k + 2 ^ wc < m + 1)]
              · rw [if_neg hlt2, if_neg (by omega : ¬ k + 2 ^ wc < m + 1)]
            · rw [if_neg hlt, if_neg (by omega : ¬ k < m + 1),
                if_neg (by omega : ¬ k + 2 ^ wc < m),
                if_neg (by omega : ¬ k + 2 ^ wc < m + 1)]

theorem cnotCore_apply_eq (N wc : ℕ) (hwc : wc < N) (s : ℕ → ℂ) (k : ℕ)
    (hk : k < 2 ^ N) :
    cnotCore N wc wc s k =
      if nthBit wc k = 1 then 0 else s k + s (k + 2 ^ wc) := by
  rw [cnotCore, cnotCore_fold_eq wc s (2 ^ N) k]
  by_cases h : nthBit wc k = 1
  · rw [if_pos h, if_pos h]
  · have hb0 : nthBit wc k = 0 := by
      rcases nthBit_eq_zero_or_one wc k with hx | hx
      · exact hx
      · exact absurd hx h
    have hlt : k + 2 ^ wc < 2 ^ N := by
      have := flipBit_lt N wc k hwc hk
      rwa [flipBit, if_neg (by omega)] at this
    rw [if_neg h, if_neg h, if_pos hk, if_pos hlt]

theorem pyStrPos_in_range (N : ℕ) (i : ℤ) (h0 : 0 ≤ i) (hN : i < (N : ℤ)) :
    pyStrPos N ((N : ℤ) - i - 1) = some ((N : ℤ) - i - 1).toNat := by
  rw [pyStrPos, if_pos (by omega)]

theorem CNOT_in_range (N : ℕ) (c t : ℤ) (s : ℕ → ℂ)
    (hc0 : 0 ≤ c) (hcN : c < (N : ℤ)) (ht0 : 0 ≤ t) (htN : t < (N : ℤ)) :
    CNOT N c t s = .ok (cnotCore N c.toNat t.toNat s) := by
  rw [CNOT, pyStrPos_in_range N c hc0 hcN, pyStrPos_in_range N t ht0 htN]
  have hcc : N - 1 - ((N : ℤ) - c - 1).toNat = c.toNat := by omega
  have htt : N - 1 - ((N : ℤ) - t - 1).toNat = t.toNat := by omega
  change Except.ok (cnotCore N (N - 1 - ((N : ℤ) - c - 1).toNat)
    (N - 1 - ((N : ℤ) - t - 1).toNat) s) = _
  rw [hcc, htt]

theorem sumSq_cnotCore_ne (N wc wt : ℕ) (hne : wc ≠ wt) (hwc : wc < N)
    (hwt : wt < N) (s : ℕ → ℂ) :
    sumSq (2 ^ N) (cnotCore N wc wt s) = sumSq (2 ^ N) s := by
  rw [sumSq, sumSq]
  have hperm : ∀ k, k < 2 ^ N →
      (if nthBit wc k = 1 then flipBit wt k else k) < 2 ^ N := by
    intro k hk
    by_cases h : nthBit wc k = 1
    · rw [if_pos h]
      exact flipBit_lt N wt k hwt hk
    · rw [if_neg h]
      exact hk
  have hinv : ∀ k, (if nthBit wc (if nthBit wc k = 1 then flipBit wt k else k) = 1 then
      flipBit wt (if nthBit wc k = 1 then flipBit wt k else k)
      else (if nthBit wc k = 1 then flipBit wt k else k)) = k := by
    intro k
    by_cases h : nthBit wc k = 1
    · rw [if_pos h, if_pos (by rw [nthBit_flipBit_ne wc wt k hne]; exact h),
        flipBit_flipBit]
    · rw [if_neg h, if_neg h]
  apply Finset.sum_nbij' (fun k => if nthBit wc k = 1 then flipBit wt k else k)
    (fun k => if nthBit wc k = 1 then flipBit wt k else k)
  · intro a ha
    exact Finset.mem_range.mpr (hperm a (Finset.mem_range.mp ha))
  · intro a ha
    exact Finset.mem_range.mpr (hperm a (Finset.mem_range.mp ha))
  · intro a ha
    exact hinv a
  · intro a ha
    exact hinv a
  · intro a ha
    have hk : a < 2 ^ N := Finset.mem_range.mp ha
    rw [cnotCore_apply_ne N wc wt hne hwt s a hk]
    by_cases h : nthBit wc a = 1
    · rw [if_pos h, if_pos h]
    · rw [if_neg h, if_neg h]

/-! ## Construction (`utils.is_pow_of_2`, `utils.e_norm`,
`QuantumState.__init__`) -/

/-- Embeds `utils.is_pow_of_2(length)`, with explicit fuel for the
`while length % 2 == 0: length //= 2` loop; `none` means the loop has not
finished within `fuel` condition checks (for input `0` it never does). -/
def isPow2Fuel : ℕ → ℕ → Option Bool
  | 0, _ => none
  | f + 1, length =>
      if length % 2 = 0 then isPow2Fuel f (length / 2) else some (length == 1)

/-- Embeds `utils.e_norm(vector)`: despite its name the source returns
`np.sum(abs_squared(vector))`, the sum of squared magnitudes, without a
square root. -/
def e_norm (v : List ℂ) : ℝ := (v.map abs_squared).sum

/-- Embeds `QuantumState.__init__(statevector)`: validates the length and the
norm, then stores a complex copy and `n_qubits = round(np.log2(len))`
(equal to `Nat.log2` on the power-of-two lengths that pass validation).
The outer `Option` is `none` when `is_pow_of_2` does not terminate within
`fuel`. -/
def quantumStateInit (fuel : ℕ) (v : List ℂ) :
    Option (Except QErr (ℕ × (ℕ → ℂ))) :=
  match isPow2Fuel fuel v.length with
  | none => none
  | some p =>
      some (if p = false then .error .validationErr
        else if 1 / 100000 < |1 - e_norm v| then .error .validationErr
        else .ok (Nat.log2 v.length, fun i => v.getD i 0))

theorem isPow2Fuel_zero_length (fuel : ℕ) : isPow2Fuel fuel 0 = none := by
  induction fuel with
  | zero => rfl
  | succ f ih =>
      rw [isPow2Fuel, if_pos (by norm_num)]
      exact ih

theorem isPow2Fuel_pos (fuel n : ℕ) (h1 : 1 ≤ n) (hf : n ≤ fuel) :
    ∃ b, isPow2Fuel fuel n = some b ∧ (b = true ↔ ∃ k, n = 2 ^ k) := by
  induction fuel generalizing n with
  | zero => omega
  | succ f ih =>
      by_cases he : n % 2 = 0
      · have hn2 : 1 ≤ n / 2 := by omega
        have hf2 : n / 2 ≤ f := by omega
        obtain ⟨b, hb, hiff⟩ := ih (n / 2) hn2 hf2
        refine ⟨b, ?_, ?_⟩
        · rw [isPow2Fuel, if_pos he, hb]
        · rw [hiff]
          constructor
          · rintro ⟨k, hk⟩
            refine ⟨k + 1, ?_⟩
            rw [pow_succ']
            omega
          · rintro ⟨k, hk⟩
            match k with
            | 0 =>
                rw [pow_zero] at hk
                omega
            | k + 1 =>
                refine ⟨k, ?_⟩
                rw [pow_succ'] at hk
                omega
      · refine ⟨n == 1, ?_, ?_⟩
        · rw [isPow2Fuel, if_neg he]
        · rw [beq_iff_eq]
          constructor
          · intro h
            exact ⟨0, by rw [pow_zero]; omega⟩
          · rintro ⟨k, hk⟩
            match k with
            | 0 =>
                rw [pow_zero] at hk
                omega
            | k + 1 =>
                rw [pow_succ'] at hk
                omega

theorem e_norm_eq_sumSq (v : List ℂ) :
    e_norm v = sumSq v.length (fun i => v.getD i 0) := by
  induction v with
  | nil => simp [e_norm, sumSq]
  | cons a t ih =>
      rw [e_norm, List.map_cons, List.sum_cons, sumSq, List.length_cons,
        Finset.sum_range_succ']
      have h1 : ∀ i, (a :: t).getD (i + 1) 0 = t.getD i 0 := by
        intro i
        rfl
      have h2 : (a :: t).getD 0 0 = a := rfl
      simp only [h1, h2]
      rw [e_norm] at ih
      rw [ih, sumSq, abs_squared_eq_normSq]
      ring

theorem measureQ_in_range (N : ℕ) (index : ℤ) (s : ℕ → ℂ) (r : ℝ)
    (h0 : 0 ≤ index) (hN : index < (N : ℤ)) :
    measureQ N index s r =
      .ok (measResult N ((N : ℤ) - index - 1).toNat s r,
        collapse N ((N : ℤ) - index - 1).toNat
          (measResult N ((N : ℤ) - index - 1).toNat s r) s) := by
  rw [measureQ, if_neg (by omega)]

theorem measureQ_out_range (N : ℕ) (index : ℤ) (s : ℕ → ℂ) (r : ℝ)
    (h : index < 0 ∨ (N : ℤ) ≤ index) :
    measureQ N index s r = .error .rangeErr := by
  rw [measureQ, if_pos h]

theorem measResult_mass_pos (N sp : ℕ) (s : ℕ → ℂ) (r : ℝ)
    (h1 : sumSq (2 ^ N) s = 1) (hr0 : 0 ≤ r) (hr1 : r < 1) :
    0 < measMass N sp (measResult N sp s r) s := by
  have htot := measMass_total N sp s
  rw [h1] at htot
  rw [measResult]
  by_cases h : r < measMass N sp 0 s
  · rw [if_pos h]
    linarith
  · rw [if_neg h]
    push_neg at h
    linarith

/-! ## Sequences of gate and measurement calls -/

/-- One public call against the engine: a gate, a CNOT, or a measurement
with its uniform draw. -/
inductive QOp where
  | x : ℤ → QOp
  | z : ℤ → QOp
  | h : ℤ → QOp
  | cnot : ℤ → ℤ → QOp
  | meas : ℤ → ℝ → QOp

/-- The validity conditions the spec attaches to a call: indices in
`[0, N)`, distinct CNOT control/target, and a draw in `[0, 1)`. -/
def validOp (N : ℕ) : QOp → Prop
  | .x i => 0 ≤ i ∧ i < (N : ℤ)
  | .z i => 0 ≤ i ∧ i < (N : ℤ)
  | .h i => 0 ≤ i ∧ i < (N : ℤ)
  | .cnot c t => (0 ≤ c ∧ c < (N : ℤ)) ∧ (0 ≤ t ∧ t < (N : ℤ)) ∧ c ≠ t
  | .meas i r => (0 ≤ i ∧ i < (N : ℤ)) ∧ 0 ≤ r ∧ r < 1

/-- Dispatch one call to the embedded engine methods. -/
def applyOp (N : ℕ) (s : ℕ → ℂ) : QOp → Except QErr (ℕ → ℂ)
  | .x i => .ok (Xg N i s)
  | .z i => .ok (Zg N i s)
  | .h i => .ok (Hg N i s)
  | .cnot c t => CNOT N c t s
  | .meas i r => (measureQ N i s r).map Prod.snd

/-- Run a sequence of calls, stopping at the first raised error. -/
def applySeq (N : ℕ) : List QOp → (ℕ → ℂ) → Except QErr (ℕ → ℂ)
  | [], s => .ok s
  | op :: rest, s =>
      match applyOp N s op with
      | .ok s2 => applySeq N rest s2
      | .error e => .error e

theorem applyOp_sumSq (N : ℕ) (op : QOp) (s : ℕ → ℂ)
    (hv : validOp N op) (h1 : sumSq (2 ^ N) s = 1) :
    ∃ s2, applyOp N s op = .ok s2 ∧ sumSq (2 ^ N) s2 = 1 := by
  cases op with
  | x i =>
      obtain ⟨h0, hN⟩ := hv
      refine ⟨Xg N i s, rfl, ?_⟩
      rw [Xg, expandOperator_sumSq N (by omega) _ xMat xMat_pairIsometry s, h1]
  | z i =>
      obtain ⟨h0, hN⟩ := hv
      refine ⟨Zg N i s, rfl, ?_⟩
      rw [Zg, expandOperator_sumSq N (by omega) _ zMat zMat_pairIsometry s, h1]
  | h i =>
      obtain ⟨h0, hN⟩ := hv
      refine ⟨Hg N i s, rfl, ?_⟩
      rw [Hg, expandOperator_sumSq N (by omega) _ hMat hMat_pairIsometry s, h1]
  | cnot c t =>
      obtain ⟨⟨hc0, hcN⟩, ⟨ht0, htN⟩, hne⟩ := hv
      refine ⟨cnotCore N c.toNat t.toNat s, ?_, ?_⟩
      · exact CNOT_in_range N c t s hc0 hcN ht0 htN
      · rw [sumSq_cnotCore_ne N c.toNat t.toNat (by omega) (by omega) (by omega) s, h1]
  | meas i r =>
      obtain ⟨⟨h0, hN⟩, hr0, hr1⟩ := hv
      refine ⟨collapse N ((N : ℤ) - i - 1).toNat
        (measResult N ((N : ℤ) - i - 1).toNat s r) s, ?_, ?_⟩
      · rw [applyOp, measureQ_in_range N i s r h0 hN, Except.map]
      · exact sumSq_collapse N _ _ s
          (measResult_mass_pos N _ s r h1 hr0 hr1)

theorem applySeq_sumSq (N : ℕ) (ops : List QOp) :
    ∀ s : ℕ → ℂ, (∀ op ∈ ops, validOp N op) → sumSq (2 ^ N) s = 1 →
      ∃ s2, applySeq N ops s = .ok s2 ∧ sumSq (2 ^ N) s2 = 1 := by
  induction ops with
  | nil =>
      intro s hv h1
      exact ⟨s, rfl, h1⟩
  | cons op rest ih =>
      intro s hv h1
      obtain ⟨s2, hs2, h2⟩ := applyOp_sumSq N op s (hv op (List.mem_cons_self op rest)) h1
      obtain ⟨s3, hs3, h3⟩ := ih s2 (fun o ho => hv o (List.mem_cons_of_mem op ho)) h2
      refine ⟨s3, ?_, h3⟩
      rw [applySeq, hs2]
      exact hs3

theorem collapse_collapse (N sp res : ℕ) (s : ℕ → ℂ)
    (hm : 0 < measMass N sp res s) :
    collapse N sp res (collapse N sp res s) = collapse N sp res s := by
  have h1 : measMass N sp res (collapse N sp res s) = 1 :=
    measMass_collapse_same N sp res s hm
  funext i
  by_cases hmem : i ∈ getQubitIndices N sp res
  · rw [collapse_apply_mem N sp res _ i hmem, h1, Real.sqrt_one,
      Complex.ofReal_one, div_one]
  · rw [collapse_apply_not_mem N sp res _ i hmem,
      collapse_apply_not_mem N sp res s i hmem]

theorem collapse_zero_mass (N sp res : ℕ) (s : ℕ → ℂ)
    (hm : measMass N sp res s = 0) :
    collapse N sp res s = fun _ => 0 := by
  funext i
  rw [collapse, hm, Real.sqrt_zero, Complex.ofReal_zero, div_zero]

theorem measMass_zero_fn (N sp o : ℕ) : measMass N sp o (fun _ => 0) = 0 := by
  rw [measMass_eq_sum]
  apply Finset.sum_eq_zero
  intro i hi
  split <;> simp

theorem collapse_zero_fn (N sp res : ℕ) :
    collapse N sp res (fun _ => 0) = fun _ => 0 := by
  funext i
  rw [collapse, zero_mul, zero_div]

theorem CNOT_never_rangeErr (N : ℕ) (c t : ℤ) (s : ℕ → ℂ) :
    CNOT N c t s ≠ Except.error QErr.rangeErr := by
  rw [CNOT]
  rcases pyStrPos N ((N : ℤ) - c - 1) with _ | cp <;>
    rcases pyStrPos N ((N : ℤ) - t - 1) with _ | tp <;>
    intro h <;> simp at h

/-- The basis statevector with amplitude 1 at index `k`. -/
def basisState (k : ℕ) : ℕ → ℂ := fun i => if i = k then 1 else 0

/-! ## The Deutsch demo (`demos/deutschs_algorithm.py`) -/

/-- Embeds `U_f(q, case)` from the demo: cases 2 and 3 apply `CNOT(0, 1)`, cases 3
and 4 apply `X(1)`; other cases raise `ValueError` (folded into
`validationErr` here). The demo operates on the fixed 2-qubit state. -/
def Uf (oracleCase : ℕ) (q : ℕ → ℂ) : Except QErr (ℕ → ℂ) :=
  if oracleCase = 1 ∨ oracleCase = 2 ∨ oracleCase = 3 ∨ oracleCase = 4 then
    match (if oracleCase = 2 ∨ oracleCase = 3 then CNOT 2 0 1 q else .ok q) with
    | .ok q2 => .ok (if oracleCase = 3 ∨ oracleCase = 4 then Xg 2 1 q2 else q2)
    | .error e => .error e
  else .error .validationErr

/-- The demo script: start at `[0,0,1,0] = |1⟩⊗|0⟩`, apply `H(0)`, `H(1)`,
the oracle, `H(0)`, then `measure(0)` with draw `r`. -/
def deutschPipeline (oracleCase : ℕ) (r : ℝ) : Except QErr (ℕ × (ℕ → ℂ)) :=
  match Uf oracleCase (Hg 2 1 (Hg 2 0 (basisState 2))) with
  | .ok q => measureQ 2 0 (Hg 2 0 q) r
  | .error e => .error e

theorem Uf_four (q : ℕ → ℂ) : Uf 4 q = .ok (Xg 2 1 q) := by
  rw [Uf, if_pos (by norm_num), if_neg (by norm_num)]
  change Except.ok (if (4 : ℕ) = 3 ∨ (4 : ℕ) = 4 then Xg 2 1 q else q) = _
  rw [if_pos (by norm_num)]

theorem Uf_three (q : ℕ → ℂ) : Uf 3 q = .ok (Xg 2 1 (cnotCore 2 0 1 q)) := by
  rw [Uf, if_pos (by norm_num), if_pos (by norm_num),
    CNOT_in_range 2 0 1 q (by norm_num) (by norm_num) (by norm_num) (by norm_num)]
  change Except.ok (if (3 : ℕ) = 3 ∨ (3 : ℕ) = 4 then Xg 2 1 (cnotCore 2 (0 : ℤ).toNat (1 : ℤ).toNat q) else cnotCore 2 (0 : ℤ).toNat (1 : ℤ).toNat q) = _
  rw [if_pos (by norm_num), Int.toNat_zero, Int.toNat_one]

theorem inv_sqrt2_mul :
    (1 / ((Real.sqrt 2 : ℝ) : ℂ)) * (1 / ((Real.sqrt 2 : ℝ) : ℂ)) = 1 / 2 := by
  rw [div_mul_div_comm, one_mul, sqrt_two_sq_complex]

theorem normSq_inv_sqrt2 :
    Complex.normSq (1 / ((Real.sqrt 2 : ℝ) : ℂ)) = 1 / 2 := by
  rw [Complex.normSq_div, Complex.normSq_one, Complex.normSq_ofReal,
    Real.mul_self_sqrt (by norm_num)]

theorem deutsch_stage1 :
    Hg 2 0 (basisState 2) 0 = 0 ∧ Hg 2 0 (basisState 2) 1 = 0 ∧
    Hg 2 0 (basisState 2) 2 = 1 / ((Real.sqrt 2 : ℝ) : ℂ) ∧
    Hg 2 0 (basisState 2) 3 = 1 / ((Real.sqrt 2 : ℝ) : ℂ) := by
  refine ⟨?_, ?_, ?_, ?_⟩ <;>
    rw [Hg_applyZ 2 0 (by norm_num) (by norm_num) (basisState 2) _ (by norm_num),
      Int.toNat_zero]
  · have e1 : nthBit 0 0 = 0 := by decide
    have e2 : setBit 0 0 0 = 0 := by decide
    have e3 : setBit 0 0 1 = 1 := by decide
    rw [e1, e2, e3, hMat00, hMat01]
    norm_num [basisState]
  · have e1 : nthBit 0 1 = 1 := by decide
    have e2 : setBit 0 1 0 = 0 := by decide
    have e3 : setBit 0 1 1 = 1 := by decide
    rw [e1, e2, e3, hMat10, hMat11]
    norm_num [basisState]
  · have e1 : nthBit 0 2 = 0 := by decide
    have e2 : setBit 0 2 0 = 2 := by decide
    have e3 : setBit 0 2 1 = 3 := by decide
    rw [e1, e2, e3, hMat00, hMat01]
    norm_num [basisState]
  · have e1 : nthBit 0 3 = 1 := by decide
    have e2 : setBit 0 3 0 = 2 := by decide
    have e3 : setBit 0 3 1 = 3 := by decide
    rw [e1, e2, e3, hMat10, hMat11]
    norm_num [basisState]

theorem deutsch_stage2 :
    Hg 2 1 (Hg 2 0 (basisState 2)) 0 = 1 / 2 ∧
    Hg 2 1 (Hg 2 0 (basisState 2)) 1 = 1 / 2 ∧
    Hg 2 1 (Hg 2 0 (basisState 2)) 2 = -(1 / 2) ∧
    Hg 2 1 (Hg 2 0 (basisState 2)) 3 = -(1 / 2) := by
  obtain ⟨h0, h1, h2, h3⟩ := deutsch_stage1
  refine ⟨?_, ?_, ?_, ?_⟩ <;>
    rw [Hg_applyZ 2 1 (by norm_num) (by norm_num) (Hg 2 0 (basisState 2)) _ (by norm_num),
      Int.toNat_one]
  · have e1 : nthBit 1 0 = 0 := by decide
    have e2 : setBit 1 0 0 = 0 := by decide
    have e3 : setBit 1 0 1 = 2 := by decide
    rw [e1, e2, e3, hMat00, hMat01, h0, h2, mul_zero, zero_add, inv_sqrt2_mul]
  · have e1 : nthBit 1 1 = 0 := by decide
    have e2 : setBit 1 1 0 = 1 := by decide
    have e3 : setBit 1 1 1 = 3 := by decide
    rw [e1, e2, e3, hMat00, hMat01, h1, h3, mul_zero, zero_add, inv_sqrt2_mul]
  · have e1 : nthBit 1 2 = 1 := by decide
    have e2 : setBit 1 2 0 = 0 := by decide
    have e3 : setBit 1 2 1 = 2 := by decide
    rw [e1, e2, e3, hMat10, hMat11, h0, h2, mul_zero, zero_add, neg_mul,
      inv_sqrt2_mul]
  · have e1 : nthBit 1 3 = 1 := by decide
    have e2 : setBit 1 3 0 = 1 := by decide
    have e3 : setBit 1 3 1 = 3 := by decide
    rw [e1, e2, e3, hMat10, hMat11, h1, h3, mul_zero, zero_add, neg_mul,
      inv_sqrt2_mul]

theorem deutsch4_stage3 :
    Xg 2 1 (Hg 2 1 (Hg 2 0 (basisState 2))) 0 = -(1 / 2) ∧
    Xg 2 1 (Hg 2 1 (Hg 2 0 (basisState 2))) 1 = -(1 / 2) ∧
    Xg 2 1 (Hg 2 1 (Hg 2 0 (basisState 2))) 2 = 1 / 2 ∧
    Xg 2 1 (Hg 2 1 (Hg 2 0 (basisState 2))) 3 = 1 / 2 := by
  obtain ⟨h0, h1, h2, h3⟩ := deutsch_stage2
  refine ⟨?_, ?_, ?_, ?_⟩ <;>
    rw [Xg_applyZ 2 1 (by norm_num) (by norm_num) (Hg 2 1 (Hg 2 0 (basisState 2))) _ (by norm_num),
      Int.toNat_one]
  · have e : flipBit 1 0 = 2 := by decide
    rw [e, h2]
  · have e : flipBit 1 1 = 3 := by decide
    rw [e, h3]
  · have e : flipBit 1 2 = 0 := by decide
    rw [e, h0]
  · have e : flipBit 1 3 = 1 := by decide
    rw [e, h1]

theorem deutsch4_stage4 :
    Hg 2 0 (Xg 2 1 (Hg 2 1 (Hg 2 0 (basisState 2)))) 0 = -(1 / ((Real.sqrt 2 : ℝ) : ℂ)) ∧
    Hg 2 0 (Xg 2 1 (Hg 2 1 (Hg 2 0 (basisState 2)))) 1 = 0 ∧
    Hg 2 0 (Xg 2 1 (Hg 2 1 (Hg 2 0 (basisState 2)))) 2 = 1 / ((Real.sqrt 2 : ℝ) : ℂ) ∧
    Hg 2 0 (Xg 2 1 (Hg 2 1 (Hg 2 0 (basisState 2)))) 3 = 0 := by
  obtain ⟨h0, h1, h2, h3⟩ := deutsch4_stage3
  have hne := sqrt_two_ne_zero_complex
  have hs2 := sqrt_two_sq_complex
  refine ⟨?_, ?_, ?_, ?_⟩ <;>
    rw [Hg_applyZ 2 0 (by norm_num) (by norm_num)
      (Xg 2 1 (Hg 2 1 (Hg 2 0 (basisState 2)))) _ (by norm_num), Int.toNat_zero]
  · have e1 : nthBit 0 0 = 0 := by decide
    have e2 : setBit 0 0 0 = 0 := by decide
    have e3 : setBit 0 0 1 = 1 := by decide
    rw [e1, e2, e3, hMat00, hMat01, h0, h1]
    field_simp
    ring
  · have e1 : nthBit 0 1 = 1 := by decide
    have e2 : setBit 0 1 0 = 0 := by decide
    have e3 : setBit 0 1 1 = 1 := by decide
    rw [e1, e2, e3, hMat10, hMat11, h0, h1]
    ring
  · have e1 : nthBit 0 2 = 0 := by decide
    have e2 : setBit 0 2 0 = 2 := by decide
    have e3 : setBit 0 2 1 = 3 := by decide
    rw [e1, e2, e3, hMat00, hMat01, h2, h3]
    field_simp
    ring
  · have e1 : nthBit 0 3 = 1 := by decide
    have e2 : setBit 0 3 0 = 2 := by decide
    have e3 : setBit 0 3 1 = 3 := by decide
    rw [e1, e2, e3, hMat10, hMat11, h2, h3]
    ring

theorem deutsch3_stage3 :
    cnotCore 2 0 1 (Hg 2 1 (Hg 2 0 (basisState 2))) 0 = 1 / 2 ∧
    cnotCore 2 0 1 (Hg 2 1 (Hg 2 0 (basisState 2))) 1 = -(1 / 2) ∧
    cnotCore 2 0 1 (Hg 2 1 (Hg 2 0 (basisState 2))) 2 = -(1 / 2) ∧
    cnotCore 2 0 1 (Hg 2 1 (Hg 2 0 (basisState 2))) 3 = 1 / 2 := by
  obtain ⟨h0, h1, h2, h3⟩ := deutsch_stage2
  refine ⟨?_, ?_, ?_, ?_⟩ <;>
    rw [cnotCore_apply_ne 2 0 1 (by norm_num) (by norm_num)
      (Hg 2 1 (Hg 2 0 (basisState 2))) _ (by norm_num)]
  · rw [if_neg (by decide), h0]
  · rw [if_pos (by decide), show flipBit 1 1 = 3 by decide, h3]
  · rw [if_neg (by decide), h2]
  · rw [if_pos (by decide), show flipBit 1 3 = 1 by decide, h1]

theorem deutsch3_stage4 :
    Xg 2 1 (cnotCore 2 0 1 (Hg 2 1 (Hg 2 0 (basisState 2)))) 0 = -(1 / 2) ∧
    Xg 2 1 (cnotCore 2 0 1 (Hg 2 1 (Hg 2 0 (basisState 2)))) 1 = 1 / 2 ∧
    Xg 2 1 (cnotCore 2 0 1 (Hg 2 1 (Hg 2 0 (basisState 2)))) 2 = 1 / 2 ∧
    Xg 2 1 (cnotCore 2 0 1 (Hg 2 1 (Hg 2 0 (basisState 2)))) 3 = -(1 / 2) := by
  obtain ⟨h0, h1, h2, h3⟩ := deutsch3_stage3
  refine ⟨?_, ?_, ?_, ?_⟩ <;>
    rw [Xg_applyZ 2 1 (by norm_num) (by norm_num)
      (cnotCore 2 0 1 (Hg 2 1 (Hg 2 0 (basisState 2)))) _ (by norm_num), Int.toNat_one]
  · rw [show flipBit 1 0 = 2 by decide, h2]
  · rw [show flipBit 1 1 = 3 by decide, h3]
  · rw [show flipBit 1 2 = 0 by decide, h0]
  · rw [show flipBit 1 3 = 1 by decide, h1]

theorem deutsch3_stage5 :
    Hg 2 0 (Xg 2 1 (cnotCore 2 0 1 (Hg 2 1 (Hg 2 0 (basisState 2))))) 0 = 0 ∧
    Hg 2 0 (Xg 2 1 (cnotCore 2 0 1 (Hg 2 1 (Hg 2 0 (basisState 2))))) 1 =
      -(1 / ((Real.sqrt 2 : ℝ) : ℂ)) ∧
    Hg 2 0 (Xg 2 1 (cnotCore 2 0 1 (Hg 2 1 (Hg 2 0 (basisState 2))))) 2 = 0 ∧
    Hg 2 0 (Xg 2 1 (cnotCore 2 0 1 (Hg 2 1 (Hg 2 0 (basisState 2))))) 3 =
      1 / ((Real.sqrt 2 : ℝ) : ℂ) := by
  obtain ⟨h0, h1, h2, h3⟩ := deutsch3_stage4
  have hne := sqrt_two_ne_zero_complex
  refine ⟨?_, ?_, ?_, ?_⟩ <;>
    rw [Hg_applyZ 2 0 (by norm_num) (by norm_num)
      (Xg 2 1 (cnotCore 2 0 1 (Hg 2 1 (Hg 2 0 (basisState 2))))) _ (by norm_num),
      Int.toNat_zero]
  · rw [show nthBit 0 0 = 0 by decide, show setBit 0 0 0 = 0 by decide,
      show setBit 0 0 1 = 1 by decide, hMat00, hMat01, h0, h1]
    ring
  · rw [show nthBit 0 1 = 1 by decide, show setBit 0 1 0 = 0 by decide,
      show setBit 0 1 1 = 1 by decide, hMat10, hMat11, h0, h1]
    field_simp
    ring
  · rw [show nthBit 0 2 = 0 by decide, show setBit 0 2 0 = 2 by decide,
      show setBit 0 2 1 = 3 by decide, hMat00, hMat01, h2, h3]
    ring
  · rw [show nthBit 0 3 = 1 by decide, show setBit 0 3 0 = 2 by decide,
      show setBit 0 3 1 = 3 by decide, hMat10, hMat11, h2, h3]
    field_simp
    ring

theorem deutsch4_prob0 :
    measMass 2 1 0 (Hg 2 0 (Xg 2 1 (Hg 2 1 (Hg 2 0 (basisState 2))))) = 1 := by
  obtain ⟨h0, h1, h2, h3⟩ := deutsch4_stage4
  rw [measMass_eq_sum, show (2 : ℕ) ^ 2 = 4 from rfl,
    Finset.sum_range_succ, Finset.sum_range_succ, Finset.sum_range_succ,
    Finset.sum_range_succ, Finset.sum_range_zero]
  rw [if_pos (by decide : nthBit (2 - 1 - 1) 0 = 0),
    if_neg (by decide : ¬ nthBit (2 - 1 - 1) 1 = 0),
    if_pos (by decide : nthBit (2 - 1 - 1) 2 = 0),
    if_neg (by decide : ¬ nthBit (2 - 1 - 1) 3 = 0), h0, h2]
  rw [Complex.normSq_neg, normSq_inv_sqrt2]
  norm_num

theorem deutsch3_prob0 :
    measMass 2 1 0 (Hg 2 0 (Xg 2 1 (cnotCore 2 0 1 (Hg 2 1 (Hg 2 0 (basisState 2)))))) = 0 := by
  obtain ⟨h0, h1, h2, h3⟩ := deutsch3_stage5
  rw [measMass_eq_sum, show (2 : ℕ) ^ 2 = 4 from rfl,
    Finset.sum_range_succ, Finset.sum_range_succ, Finset.sum_range_succ,
    Finset.sum_range_succ, Finset.sum_range_zero]
  rw [if_pos (by decide : nthBit (2 - 1 - 1) 0 = 0),
    if_neg (by decide : ¬ nthBit (2 - 1 - 1) 1 = 0),
    if_pos (by decide : nthBit (2 - 1 - 1) 2 = 0),
    if_neg (by decide : ¬ nthBit (2 - 1 - 1) 3 = 0), h0, h2]
  norm_num

theorem deutsch_eval (r : ℝ) (hr0 : 0 ≤ r) (hr1 : r < 1) :
    (deutschPipeline 4 r).map Prod.fst = Except.ok 0 ∧
    (deutschPipeline 3 r).map Prod.fst = Except.ok 1 := by
  constructor
  · rw [deutschPipeline, Uf_four]
    change (measureQ 2 0 (Hg 2 0 (Xg 2 1 (Hg 2 1 (Hg 2 0 (basisState 2))))) r).map
      Prod.fst = _
    rw [measureQ_in_range 2 0 _ r (by norm_num) (by norm_num)]
    have ht : ((((2 : ℕ)) : ℤ) - 0 - 1).toNat = 1 := by norm_num
    have hm : measResult 2 ((((2 : ℕ)) : ℤ) - 0 - 1).toNat
        (Hg 2 0 (Xg 2 1 (Hg 2 1 (Hg 2 0 (basisState 2))))) r = 0 := by
      rw [ht, measResult, deutsch4_prob0, if_pos hr1]
    rw [hm]
    rfl
  · rw [deutschPipeline, Uf_three]
    change (measureQ 2 0 (Hg 2 0 (Xg 2 1 (cnotCore 2 0 1
      (Hg 2 1 (Hg 2 0 (basisState 2)))))) r).map Prod.fst = _
    rw [measureQ_in_range 2 0 _ r (by norm_num) (by norm_num)]
    have ht : ((((2 : ℕ)) : ℤ) - 0 - 1).toNat = 1 := by norm_num
    have hm : measResult 2 ((((2 : ℕ)) : ℤ) - 0 - 1).toNat
        (Hg 2 0 (Xg 2 1 (cnotCore 2 0 1 (Hg 2 1 (Hg 2 0 (basisState 2)))))) r = 1 := by
      rw [ht, measResult, deutsch3_prob0, if_neg (by linarith)]
    rw [hm]
    rfl

/-- C3: for every N-qubit state and every pair of distinct control/target
qubit indices in `[0, N)` (adjacent or not), `CNOT` succeeds and routes
each amplitude whose control bit is 1 to the index with the target bit
flipped, leaving control-bit-0 amplitudes unchanged (bits taken under the
engine's index convention, qubit `i` = binary digit of weight `2^i`). -/
theorem claim_C3 (N : ℕ) (c t : ℕ) (s : ℕ → ℂ) (hc : c < N) (ht : t < N)
    (hne : c ≠ t) :
    CNOT N (c : ℤ) (t : ℤ) s = .ok (cnotCore N c t s) ∧
    (∀ j, j < 2 ^ N → nthBit c j = 1 → cnotCore N c t s (flipBit t j) = s j) ∧
    (∀ j, j < 2 ^ N → nthBit c j = 0 → cnotCore N c t s j = s j) := by
  have hok : CNOT N (c : ℤ) (t : ℤ) s = .ok (cnotCore N c t s) := by
    have h := CNOT_in_range N (c : ℤ) (t : ℤ) s (by omega) (by omega) (by omega)
      (by omega)
    rwa [Int.toNat_natCast, Int.toNat_natCast] at h
  refine ⟨hok, ?_, ?_⟩
  · intro j hj hb
    have hf : flipBit t j < 2 ^ N := flipBit_lt N t j ht hj
    rw [cnotCore_apply_ne N c t hne ht s _ hf]
    have hbf : nthBit c (flipBit t j) = 1 := by
      rw [nthBit_flipBit_ne c t j hne]
      exact hb
    rw [if_pos hbf, flipBit_flipBit]
  · intro j hj hb
    rw [cnotCore_apply_ne N c t hne ht s j hj, if_neg (by omega)]

theorem claim_C3_witness :
    CNOT 2 ((0 : ℕ) : ℤ) ((1 : ℕ) : ℤ) (basisState 1) =
      .ok (cnotCore 2 0 1 (basisState 1)) ∧
    cnotCore 2 0 1 (basisState 1) (flipBit 1 1) = basisState 1 1 ∧
    cnotCore 2 0 1 (basisState 1) 0 = basisState 1 0 := by
  obtain ⟨h1, h2, h3⟩ :=
    claim_C3 2 0 1 (basisState 1) (by norm_num) (by norm_num) (by norm_num)
  exact ⟨h1, h2 1 (by norm_num) (by decide), h3 0 (by norm_num) (by decide)⟩

/-- C7: applying `H` twice to the same in-range qubit returns every
amplitude of the statevector to its original value, exactly, under the
exact complex arithmetic of this embedding. -/
theorem claim_C7 (N i : ℕ) (hi : i < N) (s : ℕ → ℂ) (j : ℕ) (hj : j < 2 ^ N) :
    Hg N (i : ℤ) (Hg N (i : ℤ) s) j = s j :=
  Hg_Hg_apply N i hi s j hj

theorem claim_C7_witness :
    Hg 1 ((0 : ℕ) : ℤ) (Hg 1 ((0 : ℕ) : ℤ) (basisState 0)) 0 = basisState 0 0 :=
  claim_C7 1 0 (by norm_num) (basisState 0) 0 (by norm_num)

/-- C9: in `measure`, when the squared magnitudes sum exactly to 1, the
index is in range and the draw lies in `[0, 1)`, the selected outcome's
probability mass is strictly positive (outcome 0 needs `r < prob0`,
outcome 1 leaves mass at least `1 - r > 0`), so the renormalizing division
by its square root never divides by zero. -/
theorem claim_C9 (N : ℕ) (i : ℤ) (s : ℕ → ℂ) (r : ℝ) (b : ℕ) (s1 : ℕ → ℂ)
    (h1 : sumSq (2 ^ N) s = 1) (hr0 : 0 ≤ r) (hr1 : r < 1)
    (hm : measureQ N i s r = .ok (b, s1)) :
    (b = 0 → r < measMass N ((N : ℤ) - i - 1).toNat 0 s) ∧
    (b = 1 → 1 - r ≤ measMass N ((N : ℤ) - i - 1).toNat 1 s) ∧
    0 < measMass N ((N : ℤ) - i - 1).toNat b s := by
  have hrange : 0 ≤ i ∧ i < (N : ℤ) := by
    by_contra hc
    rw [measureQ, if_pos (by omega)] at hm
    exact absurd hm (by simp)
  obtain ⟨h0, hN⟩ := hrange
  rw [measureQ_in_range N i s r h0 hN, Except.ok.injEq, Prod.mk.injEq] at hm
  obtain ⟨hb, _⟩ := hm
  have htot := measMass_total N ((N : ℤ) - i - 1).toNat s
  rw [h1] at htot
  by_cases hlt : r < measMass N ((N : ℤ) - i - 1).toNat 0 s
  · have hb0 : b = 0 := by rw [← hb, measResult, if_pos hlt]
    refine ⟨fun _ => hlt, fun hc => by omega, ?_⟩
    rw [hb0]
    linarith
  · have hb1 : b = 1 := by rw [← hb, measResult, if_neg hlt]
    push_neg at hlt
    refine ⟨fun hc => by omega, fun _ => by linarith, ?_⟩
    rw [hb1]
    linarith

theorem sumSq_basis0 : sumSq (2 ^ 1) (basisState 0) = 1 := by
  rw [sumSq, show (2 : ℕ) ^ 1 = 2 from rfl, Finset.sum_range_succ,
    Finset.sum_range_succ, Finset.sum_range_zero]
  norm_num [basisState]

theorem measMass_basis0 : measMass 1 0 0 (basisState 0) = 1 := by
  rw [measMass_eq_sum, show (2 : ℕ) ^ 1 = 2 from rfl, Finset.sum_range_succ,
    Finset.sum_range_succ, Finset.sum_range_zero,
    if_pos (by decide : nthBit (1 - 1 - 0) 0 = 0),
    if_neg (by decide : ¬ nthBit (1 - 1 - 0) 1 = 0)]
  norm_num [basisState]

theorem measureQ_basis0 :
    measureQ 1 0 (basisState 0) (1 / 2) = .ok (0, collapse 1 0 0 (basisState 0)) := by
  rw [measureQ_in_range 1 0 (basisState 0) (1 / 2) (by norm_num) (by norm_num)]
  have ht : ((((1 : ℕ)) : ℤ) - 0 - 1).toNat = 0 := by norm_num
  have hm : measResult 1 ((((1 : ℕ)) : ℤ) - 0 - 1).toNat (basisState 0) (1 / 2) = 0 := by
    rw [ht, measResult, measMass_basis0, if_pos (by norm_num)]
  rw [hm, ht]

theorem claim_C9_witness :
    (1 : ℝ) / 2 < measMass 1 (((1 : ℕ) : ℤ) - 0 - 1).toNat 0 (basisState 0) ∧
    0 < measMass 1 (((1 : ℕ) : ℤ) - 0 - 1).toNat 0 (basisState 0) := by
  have h := claim_C9 1 0 (basisState 0) (1 / 2) 0 (collapse 1 0 0 (basisState 0))
    sumSq_basis0 (by norm_num) (by norm_num) measureQ_basis0
  exact ⟨h.1 rfl, h.2.2⟩

/-- The 1-qubit vector `[1/√2, 1/√2]`, a normalized test input. -/
def plusState : ℕ → ℂ := fun i => if i ≤ 1 then ((1 / Real.sqrt 2 : ℝ) : ℂ) else 0

theorem inv_sqrt2_sq_real : (1 / Real.sqrt 2 : ℝ) * (1 / Real.sqrt 2 : ℝ) = 1 / 2 := by
  rw [div_mul_div_comm, one_mul, Real.mul_self_sqrt (by norm_num)]

theorem sumSq_plusState : sumSq (2 ^ 1) plusState = 1 := by
  rw [sumSq, show (2 : ℕ) ^ 1 = 2 from rfl, Finset.sum_range_succ,
    Finset.sum_range_succ, Finset.sum_range_zero]
  have h0 : plusState 0 = ((1 / Real.sqrt 2 : ℝ) : ℂ) := by
    rw [plusState, if_pos (by norm_num)]
  have h1 : plusState 1 = ((1 / Real.sqrt 2 : ℝ) : ℂ) := by
    rw [plusState, if_pos (by norm_num)]
  rw [h0, h1, Complex.normSq_ofReal, inv_sqrt2_sq_real]
  norm_num

/-- C10: calling `CNOT` with `control == target` raises no error but is not
a permutation: bit-`c`-1 amplitudes become 0 and every bit-`c`-0 amplitude
becomes the sum of itself and its bit-`c` partner; on the normalized input
`[1/√2, 1/√2]` the resulting squared-magnitude sum is 2, violating the
normalization tolerance. -/
theorem claim_C10 :
    (∀ N c (s : ℕ → ℂ) k, c < N → k < 2 ^ N →
      CNOT N (c : ℤ) (c : ℤ) s = .ok (cnotCore N c c s) ∧
      cnotCore N c c s k = if nthBit c k = 1 then 0 else s k + s (k + 2 ^ c)) ∧
    sumSq (2 ^ 1) plusState = 1 ∧
    1 / 100000 < |1 - sumSq (2 ^ 1) (cnotCore 1 0 0 plusState)| := by
  refine ⟨?_, sumSq_plusState, ?_⟩
  · intro N c s k hc hk
    constructor
    · have h := CNOT_in_range N (c : ℤ) (c : ℤ) s (by omega) (by omega) (by omega)
        (by omega)
      rwa [Int.toNat_natCast] at h
    · exact cnotCore_apply_eq N c hc s k hk
  · have h0 : cnotCore 1 0 0 plusState 0 =
        plusState 0 + plusState 1 := by
      rw [cnotCore_apply_eq 1 0 (by norm_num) plusState 0 (by norm_num),
        if_neg (by decide)]
      norm_num
    have h1 : cnotCore 1 0 0 plusState 1 = 0 := by
      rw [cnotCore_apply_eq 1 0 (by norm_num) plusState 1 (by norm_num),
        if_pos (by decide)]
    rw [sumSq, show (2 : ℕ) ^ 1 = 2 from rfl, Finset.sum_range_succ,
      Finset.sum_range_succ, Finset.sum_range_zero, h0, h1]
    have hp0 : plusState 0 = ((1 / Real.sqrt 2 : ℝ) : ℂ) := by
      rw [plusState, if_pos (by norm_num)]
    have hp1 : plusState 1 = ((1 / Real.sqrt 2 : ℝ) : ℂ) := by
      rw [plusState, if_pos (by norm_num)]
    rw [hp0, hp1, ← Complex.ofReal_add, Complex.normSq_ofReal]
    have harith : (1 / Real.sqrt 2 + 1 / Real.sqrt 2) * (1 / Real.sqrt 2 + 1 / Real.sqrt 2)
        = 2 := by
      have h := inv_sqrt2_sq_real
      ring_nf
      ring_nf at h
      nlinarith [h]
    rw [harith]
    rw [map_zero]
    norm_num

theorem claim_C10_witness :
    CNOT 1 ((0 : ℕ) : ℤ) ((0 : ℕ) : ℤ) plusState = .ok (cnotCore 1 0 0 plusState) ∧
    cnotCore 1 0 0 plusState 0 =
      (if nthBit 0 0 = 1 then 0 else plusState 0 + plusState (0 + 2 ^ 0)) := by
  obtain ⟨ha, hb⟩ := claim_C10.1 1 0 plusState 0 (by norm_num) (by norm_num)
  exact ⟨ha, hb⟩

/-- C4: measuring the same qubit again immediately after a measurement
returns the same outcome for every second draw in `[0, 1)` and leaves the
collapsed, renormalized statevector unchanged. -/
theorem claim_C4 (N : ℕ) (i : ℤ) (s s1 : ℕ → ℂ) (b : ℕ) (r1 r2 : ℝ)
    (hval : |1 - sumSq (2 ^ N) s| ≤ 1 / 100000)
    (hr10 : 0 ≤ r1) (hr11 : r1 < 1) (hr20 : 0 ≤ r2) (hr21 : r2 < 1)
    (hfirst : measureQ N i s r1 = .ok (b, s1)) :
    measureQ N i s1 r2 = .ok (b, s1) := by
  have hrange : 0 ≤ i ∧ i < (N : ℤ) := by
    by_contra hc
    rw [measureQ, if_pos (by omega)] at hfirst
    exact absurd hfirst (by simp)
  obtain ⟨h0, hN⟩ := hrange
  rw [measureQ_in_range N i s r1 h0 hN, Except.ok.injEq, Prod.mk.injEq] at hfirst
  obtain ⟨hb, hs1⟩ := hfirst
  rw [measureQ_in_range N i s1 r2 h0 hN]
  by_cases hlt : r1 < measMass N ((N : ℤ) - i - 1).toNat 0 s
  · have hres : measResult N ((N : ℤ) - i - 1).toNat s r1 = 0 := by
      rw [measResult, if_pos hlt]
    have hb0 : b = 0 := by rw [← hb, hres]
    rw [hres] at hs1
    have hmpos : 0 < measMass N ((N : ℤ) - i - 1).toNat 0 s :=
      lt_of_le_of_lt hr10 hlt
    have hms1 : measMass N ((N : ℤ) - i - 1).toNat 0 s1 = 1 := by
      rw [← hs1]
      exact measMass_collapse_same N _ 0 s hmpos
    have hres2 : measResult N ((N : ℤ) - i - 1).toNat s1 r2 = 0 := by
      rw [measResult, hms1, if_pos hr21]
    rw [hres2, hb0]
    have hfix : collapse N ((N : ℤ) - i - 1).toNat 0 s1 = s1 := by
      rw [← hs1]
      exact collapse_collapse N _ 0 s hmpos
    rw [hfix]
  · have hres : measResult N ((N : ℤ) - i - 1).toNat s r1 = 1 := by
      rw [measResult, if_neg hlt]
    have hb1 : b = 1 := by rw [← hb, hres]
    rw [hres] at hs1
    have hms0 : measMass N ((N : ℤ) - i - 1).toNat 0 s1 = 0 := by
      rw [← hs1]
      exact measMass_collapse_other N _ 1 0 s (by norm_num)
    have hres2 : measResult N ((N : ℤ) - i - 1).toNat s1 r2 = 1 := by
      rw [measResult, hms0, if_neg (by linarith)]
    rw [hres2, hb1]
    have hfix : collapse N ((N : ℤ) - i - 1).toNat 1 s1 = s1 := by
      rcases lt_or_eq_of_le (measMass_nonneg N ((N : ℤ) - i - 1).toNat 1 s) with hpos | hzero
      · rw [← hs1]
        exact collapse_collapse N _ 1 s hpos
      · have hz : collapse N ((N : ℤ) - i - 1).toNat 1 s = fun _ => 0 :=
          collapse_zero_mass N _ 1 s hzero.symm
        rw [← hs1, hz, collapse_zero_fn]
    rw [hfix]

theorem claim_C4_witness :
    measureQ 1 0 (collapse 1 0 0 (basisState 0)) (1 / 2) =
      .ok (0, collapse 1 0 0 (basisState 0)) := by
  have hval : |1 - sumSq (2 ^ 1) (basisState 0)| ≤ 1 / 100000 := by
    rw [sumSq_basis0]
    norm_num
  exact claim_C4 1 0 (basisState 0) (collapse 1 0 0 (basisState 0)) 0 (1 / 2) (1 / 2)
    hval (by norm_num) (by norm_num) (by norm_num) (by norm_num) measureQ_basis0

/-- C8 (amended): in the Deutsch demo starting from `[0,0,1,0]` with the H
layer, the code's oracle case 4 is `X` on qubit 1 alone (a constant
oracle) and the final `measure(0)` deterministically yields 0 for every
draw in `[0,1)`; the oracle the spec describes (CNOT then X on qubit 1) is
case 3 and deterministically yields 1. -/
theorem claim_C8_amended (r : ℝ) (hr0 : 0 ≤ r) (hr1 : r < 1) :
    (deutschPipeline 4 r).map Prod.fst = Except.ok 0 ∧
    (deutschPipeline 3 r).map Prod.fst = Except.ok 1 :=
  deutsch_eval r hr0 hr1

theorem claim_C8_witness :
    (deutschPipeline 4 (1 / 2)).map Prod.fst = Except.ok 0 ∧
    (deutschPipeline 3 (1 / 2)).map Prod.fst = Except.ok 1 :=
  claim_C8_amended (1 / 2) (by norm_num) (by norm_num)

theorem claim_C8_counterexample :
    (deutschPipeline 4 (1 / 2)).map Prod.fst = Except.ok 0 ∧ (0 : ℕ) ≠ 1 :=
  ⟨(deutsch_eval (1 / 2) (by norm_num) (by norm_num)).1, by norm_num⟩

/-- C2 (amended): the engine interprets qubit index `i` as the `i`-th
LEAST-significant bit of the basis index (binary digit of weight `2^i`):
`X i` maps amplitude `j` to amplitude `flipBit i j`; the `prob0` that
`measure` computes for logical index `i` (string position `N-1-i`) sums
the squared magnitudes over the indices whose bit `i` is 0. On a 2-qubit
state, `X(0)` exchanges amplitudes 0↔1 and 2↔3, and `measure(0)` computes
`prob0` from basis indices 0 and 2. -/
theorem claim_C2_amended :
    (∀ N i (s : ℕ → ℂ) j, i < N → j < 2 ^ N →
      Xg N (i : ℤ) s j = s (flipBit i j)) ∧
    (∀ N i (s : ℕ → ℂ), i < N →
      measMass N (N - 1 - i) 0 s =
        ∑ j in Finset.range (2 ^ N),
          if nthBit i j = 0 then Complex.normSq (s j) else 0) ∧
    (∀ s : ℕ → ℂ, Xg 2 ((0 : ℕ) : ℤ) s 0 = s 1 ∧ Xg 2 ((0 : ℕ) : ℤ) s 1 = s 0 ∧
      Xg 2 ((0 : ℕ) : ℤ) s 2 = s 3 ∧ Xg 2 ((0 : ℕ) : ℤ) s 3 = s 2) ∧
    (∀ s : ℕ → ℂ, measMass 2 1 0 s = Complex.normSq (s 0) + Complex.normSq (s 2)) := by
  have hx : ∀ N i (s : ℕ → ℂ) j, i < N → j < 2 ^ N →
      Xg N (i : ℤ) s j = s (flipBit i j) := fun N i s j hi hj => Xg_apply N i hi s j hj
  refine ⟨hx, ?_, ?_, ?_⟩
  · intro N i s hi
    rw [measMass_eq_sum]
    have hp : N - 1 - (N - 1 - i) = i := by omega
    rw [hp]
  · intro s
    refine ⟨?_, ?_, ?_, ?_⟩
    · rw [hx 2 0 s 0 (by norm_num) (by norm_num), show flipBit 0 0 = 1 by decide]
    · rw [hx 2 0 s 1 (by norm_num) (by norm_num), show flipBit 0 1 = 0 by decide]
    · rw [hx 2 0 s 2 (by norm_num) (by norm_num), show flipBit 0 2 = 3 by decide]
    · rw [hx 2 0 s 3 (by norm_num) (by norm_num), show flipBit 0 3 = 2 by decide]
  · intro s
    rw [measMass_eq_sum, show (2 : ℕ) ^ 2 = 4 from rfl, Finset.sum_range_succ,
      Finset.sum_range_succ, Finset.sum_range_succ, Finset.sum_range_succ,
      Finset.sum_range_zero,
      if_pos (by decide : nthBit (2 - 1 - 1) 0 = 0),
      if_neg (by decide : ¬ nthBit (2 - 1 - 1) 1 = 0),
      if_pos (by decide : nthBit (2 - 1 - 1) 2 = 0),
      if_neg (by decide : ¬ nthBit (2 - 1 - 1) 3 = 0)]
    ring

theorem claim_C2_amended_witness :
    Xg 2 ((0 : ℕ) : ℤ) (basisState 0) 1 = basisState 0 (flipBit 0 1) ∧
    measMass 2 1 0 (basisState 2) =
      Complex.normSq (basisState 2 0) + Complex.normSq (basisState 2 2) :=
  ⟨claim_C2_amended.1 2 0 (basisState 0) 1 (by norm_num) (by norm_num),
    claim_C2_amended.2.2.2 (basisState 2)⟩

theorem claim_C2_counterexample :
    Xg 2 ((0 : ℕ) : ℤ) (basisState 0) 1 = 1 ∧
    Xg 2 ((0 : ℕ) : ℤ) (basisState 0) 2 = 0 ∧
    measMass 2 1 0 (basisState 2) = 1 ∧
    Complex.normSq (basisState 2 0) + Complex.normSq (basisState 2 1) = 0 := by
  refine ⟨?_, ?_, ?_, ?_⟩
  · rw [Xg_apply 2 0 (by norm_num) (basisState 0) 1 (by norm_num),
      show flipBit 0 1 = 0 by decide]
    rw [basisState, if_pos rfl]
  · rw [Xg_apply 2 0 (by norm_num) (basisState 0) 2 (by norm_num),
      show flipBit 0 2 = 3 by decide]
    rw [basisState, if_neg (by norm_num)]
  · rw [measMass_eq_sum, show (2 : ℕ) ^ 2 = 4 from rfl, Finset.sum_range_succ,
      Finset.sum_range_succ, Finset.sum_range_succ, Finset.sum_range_succ,
      Finset.sum_range_zero,
      if_pos (by decide : nthBit (2 - 1 - 1) 0 = 0),
      if_neg (by decide : ¬ nthBit (2 - 1 - 1) 1 = 0),
      if_pos (by decide : nthBit (2 - 1 - 1) 2 = 0),
      if_neg (by decide : ¬ nthBit (2 - 1 - 1) 3 = 0)]
    norm_num [basisState]
  · norm_num [basisState]

/-- C6 (amended): for an index outside `[0, N)` (with `N ≥ 1`), only
`measure` raises a `RangeError` (and leaves the state untouched, the check
preceding any mutation); `X`, `Z` and `H` raise no error and leave every
amplitude unchanged, because the expanded operator degenerates to the
identity; `CNOT` never raises a `RangeError` for either index (Python
string subscripting either wraps a position in `[N, 2N)` or raises an
`IndexError`). -/
theorem claim_C6_amended (N : ℕ) (hN : 1 ≤ N) (idx : ℤ)
    (h : idx < 0 ∨ (N : ℤ) ≤ idx) (s : ℕ → ℂ) (r : ℝ) :
    measureQ N idx s r = .error .rangeErr ∧
    (∀ j, j < 2 ^ N → Xg N idx s j = s j) ∧
    (∀ j, j < 2 ^ N → Zg N idx s j = s j) ∧
    (∀ j, j < 2 ^ N → Hg N idx s j = s j) ∧
    (∀ t : ℤ, CNOT N idx t s ≠ .error QErr.rangeErr ∧
      CNOT N t idx s ≠ .error QErr.rangeErr) :=
  ⟨measureQ_out_range N idx s r h,
    fun j hj => Xg_out_apply N hN idx h s j hj,
    fun j hj => Zg_out_apply N hN idx h s j hj,
    fun j hj => Hg_out_apply N hN idx h s j hj,
    fun t => ⟨CNOT_never_rangeErr N idx t s, CNOT_never_rangeErr N t idx s⟩⟩

theorem claim_C6_witness :
    measureQ 1 2 (basisState 0) (1 / 2) = .error .rangeErr ∧
    Xg 1 2 (basisState 0) 0 = basisState 0 0 := by
  have h := claim_C6_amended 1 (by norm_num) 2 (by norm_num) (basisState 0) (1 / 2)
  exact ⟨h.1, h.2.1 0 (by norm_num)⟩

theorem claim_C6_counterexample :
    Xg 1 2 (basisState 0) 0 = basisState 0 0 ∧
    Xg 1 2 (basisState 0) 1 = basisState 0 1 ∧
    CNOT 1 2 0 (basisState 0) = .error QErr.indexErr ∧
    QErr.indexErr ≠ QErr.rangeErr := by
  refine ⟨?_, ?_, ?_, by simp⟩
  · exact Xg_out_apply 1 (by norm_num) 2 (by norm_num) (basisState 0) 0 (by norm_num)
  · exact Xg_out_apply 1 (by norm_num) 2 (by norm_num) (basisState 0) 1 (by norm_num)
  · have h1 : pyStrPos 1 (((1 : ℕ) : ℤ) - 2 - 1) = none := by
      rw [pyStrPos, if_neg (by norm_num), if_neg (by norm_num)]
    have h2 : pyStrPos 1 (((1 : ℕ) : ℤ) - 0 - 1) = some 0 := by
      rw [pyStrPos, if_pos (by norm_num)]
      norm_num
    rw [CNOT, h1, h2]

/-- C5 (amended): construction never terminates on the empty vector (the
`while` loop of `is_pow_of_2(0)` runs forever); for a nonempty vector
(given enough fuel for the loop) it raises a `ValidationError` exactly
when the length is not a power of two or the SUM of squared magnitudes
(the quantity `e_norm` actually computes — no square root is taken) is not
within `1e-5` of 1, and otherwise succeeds, storing a complex copy of the
vector and deriving `N = log2(len(v))`. -/
theorem claim_C5_amended :
    (∀ fuel, quantumStateInit fuel [] = none) ∧
    (∀ (v : List ℂ) fuel, 1 ≤ v.length → v.length ≤ fuel →
      ((¬ (∃ k, v.length = 2 ^ k) ∨ 1 / 100000 < |1 - e_norm v|) →
        quantumStateInit fuel v = some (.error .validationErr)) ∧
      ((∃ k, v.length = 2 ^ k) ∧ |1 - e_norm v| ≤ 1 / 100000 →
        quantumStateInit fuel v = some (.ok (Nat.log2 v.length, fun i => v.getD i 0)))) := by
  constructor
  · intro fuel
    rw [quantumStateInit, List.length_nil, isPow2Fuel_zero_length]
  · intro v fuel h1 hf
    obtain ⟨b, hb, hiff⟩ := isPow2Fuel_pos fuel v.length h1 hf
    constructor
    · intro hcase
      cases b with
      | false =>
          rw [quantumStateInit, hb]
          change some (if (false : Bool) = false then Except.error QErr.validationErr
            else if 1 / 100000 < |1 - e_norm v| then Except.error QErr.validationErr
            else Except.ok (Nat.log2 v.length, fun i => v.getD i 0)) = _
          rw [if_pos rfl]
      | true =>
          have hnorm : 1 / 100000 < |1 - e_norm v| := by
            rcases hcase with hnp | hnorm
            · exact absurd (hiff.mp rfl) hnp
            · exact hnorm
          rw [quantumStateInit, hb]
          change some (if (true : Bool) = false then Except.error QErr.validationErr
            else if 1 / 100000 < |1 - e_norm v| then Except.error QErr.validationErr
            else Except.ok (Nat.log2 v.length, fun i => v.getD i 0)) = _
          rw [if_neg (by simp), if_pos hnorm]
    · rintro ⟨hpow, hnorm⟩
      have hbt : b = true := hiff.mpr hpow
      subst hbt
      rw [quantumStateInit, hb]
      change some (if (true : Bool) = false then Except.error QErr.validationErr
        else if 1 / 100000 < |1 - e_norm v| then Except.error QErr.validationErr
        else Except.ok (Nat.log2 v.length, fun i => v.getD i 0)) = _
      rw [if_neg (by simp), if_neg (not_lt.mpr hnorm)]

/-- The 1-amplitude vector `[1 + 1e-5]`: its Euclidean norm is within
`1e-5` of 1 but its sum of squared magnitudes is not. -/
def normBoundaryVec : List ℂ := [((1 + 1 / 100000 : ℝ) : ℂ)]

theorem claim_C5_counterexample :
    normBoundaryVec.length = 2 ^ 0 ∧
    |1 - Real.sqrt (e_norm normBoundaryVec)| ≤ 1 / 100000 ∧
    quantumStateInit 1 normBoundaryVec = some (.error .validationErr) := by
  have he : e_norm normBoundaryVec = (1 + 1 / 100000 : ℝ) * (1 + 1 / 100000 : ℝ) := by
    rw [normBoundaryVec, e_norm, List.map_cons, List.map_nil, List.sum_cons,
      List.sum_nil, add_zero, abs_squared_eq_normSq, Complex.normSq_ofReal]
  refine ⟨rfl, ?_, ?_⟩
  · rw [he, Real.sqrt_mul_self (by norm_num)]
    rw [show (1 : ℝ) - (1 + 1 / 100000) = -(1 / 100000) by ring, abs_neg,
      abs_of_pos (by norm_num)]
  · have hlen : isPow2Fuel 1 normBoundaryVec.length = some true := by decide
    rw [quantumStateInit, hlen]
    change some (if (true : Bool) = false then Except.error QErr.validationErr
      else if 1 / 100000 < |1 - e_norm normBoundaryVec| then
        Except.error QErr.validationErr
      else Except.ok (Nat.log2 normBoundaryVec.length,
        fun i => normBoundaryVec.getD i 0)) = _
    rw [if_neg (by simp), if_pos ?_]
    rw [he]
    rw [show (1 : ℝ) - (1 + 1 / 100000) * (1 + 1 / 100000) =
      -(2 / 100000 + 1 / 10000000000) by ring, abs_neg, abs_of_pos (by norm_num)]
    norm_num

theorem claim_C5_witness :
    quantumStateInit 1 [(1 : ℂ)] =
      some (.ok (Nat.log2 (List.length [(1 : ℂ)]), fun i => [(1 : ℂ)].getD i 0)) := by
  have he : e_norm [(1 : ℂ)] = 1 := by
    rw [e_norm, List.map_cons, List.map_nil, List.sum_cons, List.sum_nil, add_zero,
      abs_squared_eq_normSq]
    simp
  exact (claim_C5_amended.2 [(1 : ℂ)] 1 (by norm_num) (by norm_num)).2
    ⟨⟨0, by norm_num⟩, by rw [he]; norm_num⟩

/-- C1 (amended): starting from a statevector whose squared-magnitude sum
is exactly 1, every sequence of valid calls (in-range gate indices,
distinct CNOT control/target, draws in `[0,1)`) succeeds, and the sum of
squared magnitudes is exactly 1 — in particular within `1e-5` of 1 —
after every call (every prefix of a valid sequence being itself valid). -/
theorem claim_C1_amended (N : ℕ) (ops : List QOp) (s : ℕ → ℂ)
    (hv : ∀ op ∈ ops, validOp N op) (h1 : sumSq (2 ^ N) s = 1) :
    (applySeq N ops s).map (sumSq (2 ^ N)) = Except.ok 1 := by
  obtain ⟨s2, hs2, h2⟩ := applySeq_sumSq N ops s hv h1
  rw [hs2]
  change Except.ok (sumSq (2 ^ N) s2) = _
  rw [h2]

theorem claim_C1_witness :
    (applySeq 1 [QOp.x 0] (basisState 0)).map (sumSq (2 ^ 1)) = Except.ok 1 := by
  apply claim_C1_amended
  · intro op hop
    rw [List.mem_singleton] at hop
    subst hop
    exact ⟨by norm_num, by norm_num⟩
  · exact sumSq_basis0

/-- The amplitude `√(1 - 1e-5)`: a 1-qubit state `[√(1-1e-5), 0]` built
from it passes construction (its squared-magnitude sum is exactly
`1 - 1e-5`, on the tolerance boundary). -/
def subNormAmp : ℂ := ((Real.sqrt (1 - 1 / 100000) : ℝ) : ℂ)

/-- The function form of the statevector `[√(1-1e-5), 0]`. -/
def subNormState : ℕ → ℂ := fun i => if i = 0 then subNormAmp else 0

theorem subNormAmp_normSq : Complex.normSq subNormAmp = 1 - 1 / 100000 := by
  rw [subNormAmp, Complex.normSq_ofReal, Real.mul_self_sqrt (by norm_num)]

theorem subNorm_mass0 : measMass 1 0 0 subNormState = 1 - 1 / 100000 := by
  rw [measMass_eq_sum, show (2 : ℕ) ^ 1 = 2 from rfl, Finset.sum_range_succ,
    Finset.sum_range_succ, Finset.sum_range_zero,
    if_pos (by decide : nthBit (1 - 1 - 0) 0 = 0),
    if_neg (by decide : ¬ nthBit (1 - 1 - 0) 1 = 0)]
  rw [show subNormState 0 = subNormAmp from rfl, subNormAmp_normSq]
  norm_num

theorem subNorm_mass1 : measMass 1 0 1 subNormState = 0 := by
  rw [measMass_eq_sum, show (2 : ℕ) ^ 1 = 2 from rfl, Finset.sum_range_succ,
    Finset.sum_range_succ, Finset.sum_range_zero,
    if_neg (by decide : ¬ nthBit (1 - 1 - 0) 0 = 1),
    if_pos (by decide : nthBit (1 - 1 - 0) 1 = 1)]
  rw [show subNormState 1 = 0 from rfl]
  simp

theorem claim_C1_counterexample :
    quantumStateInit 2 [subNormAmp, 0] = some (.ok (1, subNormState)) ∧
    validOp 1 (QOp.meas 0 (999999 / 1000000)) ∧
    (applySeq 1 [QOp.meas 0 (999999 / 1000000)] subNormState).map (sumSq (2 ^ 1)) =
      Except.ok 0 ∧
    ¬ |1 - (0 : ℝ)| ≤ 1 / 100000 := by
  refine ⟨?_, ⟨⟨by norm_num, by norm_num⟩, by norm_num, by norm_num⟩, ?_, by norm_num⟩
  · have hlen : isPow2Fuel 2 (List.length [subNormAmp, (0 : ℂ)]) = some true := by
      decide
    have he : e_norm [subNormAmp, 0] = 1 - 1 / 100000 := by
      rw [e_norm, List.map_cons, List.map_cons, List.map_nil, List.sum_cons,
        List.sum_cons, List.sum_nil, add_zero, abs_squared_eq_normSq,
        abs_squared_eq_normSq, subNormAmp_normSq]
      simp
    rw [quantumStateInit, hlen]
    change some (if (true : Bool) = false then Except.error QErr.validationErr
      else if 1 / 100000 < |1 - e_norm [subNormAmp, 0]| then
        Except.error QErr.validationErr
      else Except.ok (Nat.log2 (List.length [subNormAmp, (0 : ℂ)]),
        fun i => [subNormAmp, (0 : ℂ)].getD i 0)) = _
    rw [if_neg (by simp), if_neg ?hnorm]
    case hnorm =>
      rw [he]
      rw [show (1 : ℝ) - (1 - 1 / 100000) = 1 / 100000 by ring,
        abs_of_pos (by norm_num)]
      norm_num
    have hfun : (fun i => [subNormAmp, (0 : ℂ)].getD i 0) = subNormState := by
      funext i
      match i with
      | 0 => rfl
      | 1 => rfl
      | n + 2 => rfl
    rw [hfun, show Nat.log2 (List.length [subNormAmp, (0 : ℂ)]) = 1 by
      simp [Nat.log2]]
  · have hres : measResult 1 0 subNormState (999999 / 1000000) = 1 := by
      rw [measResult, subNorm_mass0, if_neg (by norm_num)]
    have hcoll : collapse 1 0 1 subNormState = fun _ => 0 :=
      collapse_zero_mass 1 0 1 subNormState subNorm_mass1
    have hmeas : measureQ 1 0 subNormState (999999 / 1000000) =
        .ok (1, fun _ => 0) := by
      rw [measureQ_in_range 1 0 subNormState (999999 / 1000000) (by norm_num)
        (by norm_num)]
      have ht : ((((1 : ℕ)) : ℤ) - 0 - 1).toNat = 0 := by norm_num
      rw [ht, hres, hcoll]
    have happ : applyOp 1 subNormState (QOp.meas 0 (999999 / 1000000)) =
        .ok (fun _ => 0) := by
      rw [applyOp, hmeas, Except.map]
    rw [applySeq, happ]
    change Except.ok (sumSq (2 ^ 1) (fun _ => 0)) = _
    rw [sumSq]
    simp

end
